import Mathlib

/-!
# Standard Liquid tags (`tags/tags.go`): `if` / `unless`, `case` / `when`, `capture`

A shallow embedding of the tag compilers of `src/tags/tags.go`, of the render
closures they return, and of the registrations made by `DefineStandardTags`.

* Go's `interface{}` values are the inductive type `Value`; Go's `==` on interface
  values is `ifaceEq`, which can fail (run-time panic) on non-comparable kinds.
* The packages `expressions`, `generics` and `chunks` are not part of the source
  file.  Their functions are taken as parameters (`Expressions`, `Equal`,
  `RenderContext`); the node type is modelled from the specification.
* A render closure `func(w io.Writer, ctx chunks.RenderContext) error` becomes a
  function of the writer contents and of the state behind `ctx`.  Every method call
  made on `ctx` is appended to a call log, which is what "calls `RenderBranch` exactly
  once" or "never evaluates a later test" are stated about.
* `DefineStandardTags` is the list of its registration statements, in order.  The
  registry that these statements build belongs to package `chunks`; it is modelled
  from the specification (`TagDefinition`, `register`, `install`).
-/

namespace Liquid

/-! ## Values and Go's interface comparison -/

/-- Go `error` values, identified by their message; `nil` is `none` in `Option Error`. -/
abbrev Error := String

/-- Dynamic values held in a Go `interface{}`: the nil interface, `bool`, `int`,
`string`, `[]interface{}` and `map[string]interface{}`. -/
inductive Value where
  | nil
  | bool (b : Bool)
  | int (n : Int)
  | str (s : String)
  | slice (xs : List Value)
  | map (kvs : List (String × Value))

/-- Go's `a == b` on two interface values.  Values of different dynamic types are
unequal, values of one comparable type are compared, and the comparison of two values
of one non-comparable type (slice, map) is a run-time panic: `none`. -/
def ifaceEq : Value → Value → Option Bool
  | .nil, .nil => some true
  | .bool a, .bool b => some (a == b)
  | .int a, .int b => some (a == b)
  | .str a, .str b => some (a == b)
  | .slice _, .slice _ => none
  | .map _, .map _ => none
  | _, _ => some false

/-- Go's `a != b` on two interface values. -/
def ifaceNe (a b : Value) : Option Bool :=
  (ifaceEq a b).map (fun r => !r)

/-- The condition of line 116, `value != nil && value != false`, with the
short-circuit of `&&`; `none` is a run-time panic of one of the comparisons. -/
def ifCondition (value : Value) : Option Bool :=
  match ifaceNe value Value.nil with
  | none => none
  | some false => some false
  | some true => ifaceNe value (Value.bool false)

/-! ## The collaborators of the package -/

/-- Modelled from the spec: a child node of a tag body (`chunks.ASTNode`), opaque to
the tag compilers and only rendered through the context. -/
structure ASTNode where
  Source : String

/-- Modelled from the spec: `chunks.ASTControlTag`, a parsed occurrence of a tag with
its keyword, its raw argument text, its body and its ordered branch nodes. -/
inductive ASTControlTag where
  | mk (Name : String) (Parameters : String) (Body : List ASTNode)
      (Branches : List ASTControlTag)

namespace ASTControlTag

/-- Field `Name`. -/
def Name : ASTControlTag → String
  | mk n _ _ _ => n

/-- Field `Parameters`. -/
def Parameters : ASTControlTag → String
  | mk _ p _ _ => p

/-- Field `Body`. -/
def Body : ASTControlTag → List ASTNode
  | mk _ _ b _ => b

/-- Field `Branches`. -/
def Branches : ASTControlTag → List ASTControlTag
  | mk _ _ _ bs => bs

end ASTControlTag

/-- The functions of package `expressions` used by the tag compilers, over an
arbitrary type `E` of compiled expressions. -/
structure Expressions (E : Type) where
  Parse : String → Except Error E
  Negate : E → E
  Constant : Value → E

/-- The output written so far to an `io.Writer`. -/
abbrev Writer := List String

/-- The methods of `chunks.RenderContext` used by the render closures, as functions of
the state `σ` behind the context.  Only `RenderBranch` is handed the writer. -/
structure RenderContext (E σ : Type) where
  Evaluate : E → σ → Except Error Value × σ
  RenderBranch : Writer → ASTControlTag → σ → Option Error × Writer × σ
  InnerString : σ → Except Error String × σ
  Set : String → Value → σ → σ

/-- One method call made on the render context. -/
inductive Call (E : Type) where
  | evaluate (e : E)
  | renderBranch (node : ASTControlTag)
  | innerString
  | set (name : String) (value : Value)

/-- The state behind a context together with the log of the calls made on it. -/
structure Run (E σ : Type) where
  ctx : σ
  calls : List (Call E)

/-- What a render closure leaves behind: its `error` result (`ret none` is a nil
error) or a run-time panic, the writer contents, and the context state and log. -/
inductive Outcome where
  | ret (err : Option Error)
  | panic

/-- Result of running a render closure. -/
abbrev Rendered (E σ : Type) := Outcome × Writer × Run E σ

/-- A compiled render closure `func(w io.Writer, ctx chunks.RenderContext) error`. -/
abbrev RenderFunc (E σ : Type) := RenderContext E σ → Writer → Run E σ → Rendered E σ

section Calls

variable {E σ : Type}

/-- The call `ctx.Evaluate(e)`, logged. -/
def callEvaluate (c : RenderContext E σ) (e : E) (st : Run E σ) :
    Except Error Value × Run E σ :=
  ((c.Evaluate e st.ctx).1, ⟨(c.Evaluate e st.ctx).2, st.calls ++ [Call.evaluate e]⟩)

/-- The call `ctx.RenderBranch(w, node)`, logged. -/
def callRenderBranch (c : RenderContext E σ) (w : Writer) (node : ASTControlTag)
    (st : Run E σ) : Option Error × Writer × Run E σ :=
  ((c.RenderBranch w node st.ctx).1, (c.RenderBranch w node st.ctx).2.1,
    ⟨(c.RenderBranch w node st.ctx).2.2, st.calls ++ [Call.renderBranch node]⟩)

/-- The call `ctx.InnerString()`, logged. -/
def callInnerString (c : RenderContext E σ) (st : Run E σ) :
    Except Error String × Run E σ :=
  ((c.InnerString st.ctx).1, ⟨(c.InnerString st.ctx).2, st.calls ++ [Call.innerString]⟩)

/-- The call `ctx.Set(name, value)`, logged. -/
def callSet (c : RenderContext E σ) (name : String) (value : Value) (st : Run E σ) :
    Run E σ :=
  ⟨c.Set name value st.ctx, st.calls ++ [Call.set name value]⟩

end Calls

/-! ## `captureTagParser` -/

section Capture

variable {E σ : Type}

/-- The closure returned by `captureTagParser` (lines 32-39). -/
def captureRender (varname : String) : RenderFunc E σ :=
  fun c w st =>
    match callInnerString c st with
    | (.error err, st1) => (Outcome.ret (some err), w, st1)
    | (.ok s, st1) => (Outcome.ret none, w, callSet c varname (Value.str s) st1)

/-- Source function `captureTagParser` (lines 29-40); it never reports an error. -/
def captureTagParser (node : ASTControlTag) : Except Error (RenderFunc E σ) :=
  let varname := node.Parameters
  .ok (captureRender varname)

end Capture

/-! ## `caseTagParser` -/

/-- The local record `caseRec` of `caseTagParser`. -/
structure caseRec (E : Type) where
  expr : E
  node : ASTControlTag

section Case

variable {E σ : Type}

/-- The loop of lines 54-60: parse the parameters of each branch in order, appending
to `cases`; the first parse error is returned. -/
def caseCompileLoop (X : Expressions E) :
    List ASTControlTag → List (caseRec E) → Except Error (List (caseRec E))
  | [], cases => .ok cases
  | branch :: rest, cases =>
    match X.Parse branch.Parameters with
    | .error err => .error err
    | .ok bfn => caseCompileLoop X rest (cases ++ [⟨bfn, branch⟩])

/-- Lines 45-60 of `caseTagParser`: the parsed subject and the compiled `cases`. -/
def caseTagCompile (X : Expressions E) (node : ASTControlTag) :
    Except Error (E × List (caseRec E)) :=
  match X.Parse node.Parameters with
  | .error err => .error err
  | .ok expr =>
    match caseCompileLoop X node.Branches [] with
    | .error err => .error err
    | .ok cases => .ok (expr, cases)

/-- The loop of lines 66-74 of the case render closure. -/
def caseRenderLoop (Equal : Value → Value → Bool) (c : RenderContext E σ)
    (value : Value) : List (caseRec E) → Writer → Run E σ → Rendered E σ
  | [], w, st => (Outcome.ret none, w, st)
  | branch :: rest, w, st =>
    match callEvaluate c branch.expr st with
    | (.error err, st1) => (Outcome.ret (some err), w, st1)
    | (.ok b, st1) =>
      if Equal value b then
        match callRenderBranch c w branch.node st1 with
        | (err, w1, st2) => (Outcome.ret err, w1, st2)
      else caseRenderLoop Equal c value rest w st1

/-- The closure returned by `caseTagParser` (lines 61-76). -/
def caseRender (Equal : Value → Value → Bool) (expr : E) (cases : List (caseRec E)) :
    RenderFunc E σ :=
  fun c w st =>
    match callEvaluate c expr st with
    | (.error err, st1) => (Outcome.ret (some err), w, st1)
    | (.ok value, st1) => caseRenderLoop Equal c value cases w st1

/-- Source function `caseTagParser` (lines 42-77); `Equal` is `generics.Equal`. -/
def caseTagParser (X : Expressions E) (Equal : Value → Value → Bool)
    (node : ASTControlTag) : Except Error (RenderFunc E σ) :=
  match caseTagCompile X node with
  | .error err => .error err
  | .ok (expr, cases) => .ok (caseRender Equal expr cases)

end Case

/-! ## `ifTagParser` -/

/-- The local record `branchRec` of `ifTagParser`. -/
structure branchRec (E : Type) where
  test : E
  body : ASTControlTag

section If

variable {E σ : Type}

/-- The loop of lines 95-109: one entry per branch node, in order.  The test is
`Constant(true)` unless the branch is named `elsif`, whose parameters are parsed. -/
def ifCompileLoop (X : Expressions E) :
    List ASTControlTag → List (branchRec E) → Except Error (List (branchRec E))
  | [], branches => .ok branches
  | c :: rest, branches =>
    let test := X.Constant (Value.bool true)
    if c.Name = "else" then
      ifCompileLoop X rest (branches ++ [⟨test, c⟩])
    else if c.Name = "elsif" then
      match X.Parse c.Parameters with
      | .error err => .error err
      | .ok t => ifCompileLoop X rest (branches ++ [⟨t, c⟩])
    else
      ifCompileLoop X rest (branches ++ [⟨test, c⟩])

/-- Lines 85-109 of `ifTagParser(polarity)`: the compiled `branches`. -/
def ifTagCompile (X : Expressions E) (polarity : Bool) (node : ASTControlTag) :
    Except Error (List (branchRec E)) :=
  match X.Parse node.Parameters with
  | .error err => .error err
  | .ok expr =>
    let expr := if !polarity then X.Negate expr else expr
    ifCompileLoop X node.Branches [⟨expr, node⟩]

/-- The closure returned by `ifTagParser` (lines 110-121), as a loop over the
remaining `branches`. -/
def ifRender (c : RenderContext E σ) :
    List (branchRec E) → Writer → Run E σ → Rendered E σ
  | [], w, st => (Outcome.ret none, w, st)
  | b :: rest, w, st =>
    match callEvaluate c b.test st with
    | (.error err, st1) => (Outcome.ret (some err), w, st1)
    | (.ok value, st1) =>
      match ifCondition value with
      | none => (Outcome.panic, w, st1)
      | some true =>
        match callRenderBranch c w b.body st1 with
        | (err, w1, st2) => (Outcome.ret err, w1, st2)
      | some false => ifRender c rest w st1

/-- Source function `ifTagParser` (lines 79-123). -/
def ifTagParser (X : Expressions E) (polarity : Bool) (node : ASTControlTag) :
    Except Error (RenderFunc E σ) :=
  match ifTagCompile X polarity node with
  | .error err => .error err
  | .ok branches => .ok (fun c w st => ifRender c branches w st)

end If

/-! ## `DefineStandardTags` -/

/-- A tag compiler `func(chunks.ASTControlTag) (func(io.Writer, chunks.RenderContext)
error, error)`. -/
abbrev TagParser (E σ : Type) := ASTControlTag → Except Error (RenderFunc E σ)

/-- A method call chained on the builder that `chunks.DefineStartTag` returns. -/
inductive BuilderCall (P : Type) where
  | Branch (name : String)
  | Governs (names : List String)
  | SameSyntaxAs (name : String)
  | Parser (p : P)

/-- One registration statement: `chunks.DefineTag(name, f)`, or
`chunks.DefineStartTag(name)` followed by its chained builder calls, in order. -/
inductive Registration (P R : Type) where
  | DefineTag (name : String) (render : R)
  | DefineStartTag (name : String) (calls : List (BuilderCall P))

/-- Source function `DefineStandardTags` (lines 13-27): its registration statements in
order.  `breakTag`, `continueTag` and `loopTagParser` are defined outside the source
file and are parameters. -/
def DefineStandardTags {E σ R : Type} (X : Expressions E) (Equal : Value → Value → Bool)
    (breakTag continueTag : R) (loopTagParser : TagParser E σ) :
    List (Registration (TagParser E σ) R) :=
  let loopTags := ["break", "continue", "cycle"]
  [ .DefineTag "break" breakTag,
    .DefineTag "continue" continueTag,
    .DefineStartTag "capture" [.Parser captureTagParser],
    .DefineStartTag "case" [.Branch "when", .Parser (caseTagParser X Equal)],
    .DefineStartTag "comment" [],
    .DefineStartTag "for" [.Governs loopTags, .Parser loopTagParser],
    .DefineStartTag "if" [.Branch "else", .Branch "elsif", .Parser (ifTagParser X true)],
    .DefineStartTag "raw" [],
    .DefineStartTag "tablerow" [.Governs loopTags],
    .DefineStartTag "unless" [.SameSyntaxAs "if", .Parser (ifTagParser X false)] ]

/-- Modelled from the spec: the registry entry `TagDefinition` of package `chunks`,
which is not part of the source file: the tag name, whether it is a block tag, its
declared branch names in order of first declaration, the tag names it governs, the
tag whose syntax it reuses, its compiler, and the render function of a simple tag. -/
structure TagDefinition (P R : Type) where
  name : String
  isBlock : Bool
  declaredBranches : List String
  governedTags : List String
  syntaxAlias : Option String
  compileFn : Option P
  renderFn : Option R

/-- Modelled from the spec: the tag registry, in order of registration. -/
abbrev Registry (P R : Type) := List (TagDefinition P R)

section Registry

variable {P R : Type}

/-- Modelled from the spec: lookup of a definition by tag name. -/
def Registry.lookup (reg : Registry P R) (name : String) : Option (TagDefinition P R) :=
  reg.find? (fun d => d.name == name)

/-- The names of the list that are not yet in `old`, appended to `old`. -/
def addNames (old : List String) (names : List String) : List String :=
  names.foldl (fun acc n => if n ∈ acc then acc else acc ++ [n]) old

/-- Modelled from the spec: the builder operations `branch`, `governs`,
`sameSyntaxAs` and `withCompiler` of the registry, applied to the definition under
construction.  `sameSyntaxAs` copies the branch and governance shape of the named
definition. -/
def applyBuilderCall (reg : Registry P R) (d : TagDefinition P R) :
    BuilderCall P → TagDefinition P R
  | .Branch name => { d with declaredBranches := addNames d.declaredBranches [name] }
  | .Governs names => { d with governedTags := addNames d.governedTags names }
  | .SameSyntaxAs name =>
    match reg.lookup name with
    | some other =>
      { d with syntaxAlias := some name, declaredBranches := other.declaredBranches,
               governedTags := other.governedTags }
    | none => { d with syntaxAlias := some name }
  | .Parser p => { d with compileFn := some p }

/-- Modelled from the spec: `defineSimpleTag` and `defineBlockTag`; registering a name
twice is a configuration fault. -/
def register (reg : Registry P R) : Registration P R → Except Error (Registry P R)
  | .DefineTag name render =>
    if (reg.lookup name).isSome then .error ("tag defined twice: " ++ name)
    else .ok (reg ++ [⟨name, false, [], [], none, none, some render⟩])
  | .DefineStartTag name calls =>
    if (reg.lookup name).isSome then .error ("tag defined twice: " ++ name)
    else .ok (reg ++ [calls.foldl (applyBuilderCall reg) ⟨name, true, [], [], none, none, none⟩])

/-- The registry after the given registration statements, starting from `reg`. -/
def install : List (Registration P R) → Registry P R → Except Error (Registry P R)
  | [], reg => .ok reg
  | r :: rest, reg =>
    match register reg r with
    | .error err => .error err
    | .ok reg1 => install rest reg1

/-- The tag name that a registration statement registers. -/
def Registration.name : Registration P R → String
  | .DefineTag name _ => name
  | .DefineStartTag name _ => name

end Registry

/-! ## Notions used to state the properties -/

/-- Truthiness rule of the specification: a value is falsy exactly when it is the nil
value or the boolean `false`. -/
def isFalsy : Value → Bool
  | .nil => true
  | .bool false => true
  | _ => false

section Runs

variable {E σ : Type}

/-- Evaluate the tests in order, starting in state `s`: `some s1` when every one of
them succeeds with a falsy value, `s1` being the state after the last evaluation. -/
def allFalsy (c : RenderContext E σ) : List E → σ → Option σ
  | [], s => some s
  | e :: es, s =>
    match c.Evaluate e s with
    | (.ok v, s1) => if isFalsy v then allFalsy c es s1 else none
    | (.error _, _) => none

/-- Evaluate the candidates in order, starting in state `s`: `some s1` when every one
of them succeeds with a value `b` for which `Equal value b` is false. -/
def noneEqual (Equal : Value → Value → Bool) (c : RenderContext E σ) (value : Value) :
    List E → σ → Option σ
  | [], s => some s
  | e :: es, s =>
    match c.Evaluate e s with
    | (.ok b, s1) => if Equal value b then none else noneEqual Equal c value es s1
    | (.error _, _) => none

/-- The log entries of evaluating the given expressions in order. -/
def evaluations (es : List E) : List (Call E) :=
  es.map Call.evaluate

end Runs

/-- The first error met when parsing the given texts in order, if any. -/
def firstParseError {E : Type} (X : Expressions E) : List String → Option Error
  | [] => none
  | t :: ts =>
    match X.Parse t with
    | .error err => some err
    | .ok _ => firstParseError X ts

/-- The entry that a branch node contributes to the compiled list of an `if` chain:
its body is the node, and its test is `Constant(true)` for `else`, the parse of the
node parameters for `elsif`, and `Constant(true)` for every other name. -/
def IfEntry {E : Type} (X : Expressions E) (c : ASTControlTag) (b : branchRec E) : Prop :=
  b.body = c ∧
  (c.Name = "else" → b.test = X.Constant (Value.bool true)) ∧
  (c.Name = "elsif" → X.Parse c.Parameters = .ok b.test) ∧
  (c.Name ≠ "else" → c.Name ≠ "elsif" → b.test = X.Constant (Value.bool true))

/-- The entry that a `when` node contributes to the compiled list of a `case`: the
node itself, paired with the parse of its parameters. -/
def CaseEntry {E : Type} (X : Expressions E) (branch : ASTControlTag) (r : caseRec E) :
    Prop :=
  r.node = branch ∧ X.Parse branch.Parameters = .ok r.expr

/-! ## A small instance of the collaborators, for concrete runs -/

namespace Example

/-- Expressions of the instance: literals, variables and negation. -/
inductive Expr where
  | const (v : Value)
  | var (name : String)
  | not (e : Expr)

/-- A parser for a handful of expression texts; every other text is malformed. -/
def parse : String → Except Error Expr
  | "true" => .ok (.const (.bool true))
  | "false" => .ok (.const (.bool false))
  | "nil" => .ok (.const .nil)
  | "0" => .ok (.const (.int 0))
  | "1" => .ok (.const (.int 1))
  | "2" => .ok (.const (.int 2))
  | "3" => .ok (.const (.int 3))
  | "x" => .ok (.var "x")
  | "y" => .ok (.var "y")
  | "not true" => .ok (.not (.const (.bool true)))
  | s => .error ("syntax error in " ++ s)

/-- The `expressions` package of the instance. -/
def exprs : Expressions Expr where
  Parse := parse
  Negate := Expr.not
  Constant := Expr.const

/-- State of the instance: the variable bindings, the result that `InnerString` has
for the current tag, and the number of evaluations made so far. -/
structure State where
  vars : List (String × Value)
  inner : Except Error String
  evals : Nat

/-- Evaluation of the instance; an unbound variable is an error. -/
def eval (vars : List (String × Value)) : Expr → Except Error Value
  | .const v => .ok v
  | .var x =>
    match vars.lookup x with
    | some v => .ok v
    | none => .error ("undefined variable " ++ x)
  | .not e =>
    match eval vars e with
    | .ok v => .ok (.bool (isFalsy v))
    | .error err => .error err

/-- Equality of the instance: scalars of one kind with equal contents. -/
def equal : Value → Value → Bool
  | .nil, .nil => true
  | .bool a, .bool b => a == b
  | .int a, .int b => a == b
  | .str a, .str b => a == b
  | _, _ => false

/-- The render context of the instance: a branch is rendered by writing the sources
of its body, and `Set` puts the binding in front of the older ones. -/
def context : RenderContext Expr State where
  Evaluate := fun e s => (eval s.vars e, { s with evals := s.evals + 1 })
  RenderBranch := fun w node s => (none, w ++ node.Body.map ASTNode.Source, s)
  InnerString := fun s => (s.inner, s)
  Set := fun name value s => { s with vars := (name, value) :: s.vars }

/-- The node of `if false / elsif true / else` with bodies `A`, `B`, `C`. -/
def ifNode : ASTControlTag :=
  .mk "if" "false" [⟨"A"⟩]
    [.mk "elsif" "true" [⟨"B"⟩] [], .mk "else" "" [⟨"C"⟩] []]

/-- The node of `if x / elsif y` with bodies `A`, `B`. -/
def ifVarNode : ASTControlTag :=
  .mk "if" "x" [⟨"A"⟩] [.mk "elsif" "y" [⟨"B"⟩] []]

/-- The node of `unless true / else` with bodies `A`, `B`. -/
def unlessNode : ASTControlTag :=
  .mk "unless" "true" [⟨"A"⟩] [.mk "else" "" [⟨"B"⟩] []]

/-- The node of `case 2 / when 1 / when 2 / when 3`. -/
def caseNode : ASTControlTag :=
  .mk "case" "2" []
    [.mk "when" "1" [⟨"one"⟩] [], .mk "when" "2" [⟨"two"⟩] [],
     .mk "when" "3" [⟨"three"⟩] []]

/-- The node of `capture greeting` with body `hi`. -/
def captureNode : ASTControlTag :=
  .mk "capture" "greeting" [⟨"hi"⟩] []

/-- A state with no binding whose inner text is `hi`. -/
def start : State :=
  ⟨[], .ok "hi", 0⟩

/-- The compiled `branches` of `ifNode`. -/
def ifBranches : List (branchRec Expr) :=
  [⟨.const (.bool false), ifNode⟩,
   ⟨.const (.bool true), .mk "elsif" "true" [⟨"B"⟩] []⟩,
   ⟨.const (.bool true), .mk "else" "" [⟨"C"⟩] []⟩]

/-- The compiled `branches` of `ifVarNode`. -/
def ifVarBranches : List (branchRec Expr) :=
  [⟨.var "x", ifVarNode⟩, ⟨.var "y", .mk "elsif" "y" [⟨"B"⟩] []⟩]

/-- The compiled `cases` of `caseNode`. -/
def caseCases : List (caseRec Expr) :=
  [⟨.const (.int 1), .mk "when" "1" [⟨"one"⟩] []⟩,
   ⟨.const (.int 2), .mk "when" "2" [⟨"two"⟩] []⟩,
   ⟨.const (.int 3), .mk "when" "3" [⟨"three"⟩] []⟩]

/-- A state in which `x` is bound to `false` and `y` is not bound. -/
def xFalse : State :=
  ⟨[("x", .bool false)], .ok "hi", 0⟩

/-- A state in which `x` is bound to `false` and `y` to `nil`. -/
def xyFalsy : State :=
  ⟨[("x", .bool false), ("y", .nil)], .ok "hi", 0⟩

/-- The node of `case 0 / when 1 / when 2`, in which no candidate matches. -/
def caseMissNode : ASTControlTag :=
  .mk "case" "0" [] [.mk "when" "1" [⟨"one"⟩] [], .mk "when" "2" [⟨"two"⟩] []]

/-- The compiled `cases` of `caseMissNode`. -/
def caseMissCases : List (caseRec Expr) :=
  [⟨.const (.int 1), .mk "when" "1" [⟨"one"⟩] []⟩,
   ⟨.const (.int 2), .mk "when" "2" [⟨"two"⟩] []⟩]

/-- The node of a `case x` without any `when`. -/
def caseEmptyNode : ASTControlTag :=
  .mk "case" "x" [⟨"ignored"⟩] []

/-- The node of `if not true / else` with bodies `A`, `B`. -/
def ifNotNode : ASTControlTag :=
  .mk "if" "not true" [⟨"A"⟩] [.mk "else" "" [⟨"B"⟩] []]

/-- The node of `case 2 / when 1 / when ??`, whose second candidate is malformed. -/
def caseBadNode : ASTControlTag :=
  .mk "case" "2" [] [.mk "when" "1" [⟨"one"⟩] [], .mk "when" "??" [⟨"two"⟩] []]

/-- A state in which `greeting` is bound to `old` and whose inner text is empty. -/
def bound : State :=
  ⟨[("greeting", .str "old")], .ok "", 0⟩

/-- The variable lookup of the instance. -/
def lookup (s : State) (name : String) : Option Value :=
  s.vars.lookup name

/-- A state in which `greeting` is bound to `old` and whose inner rendering fails. -/
def failing : State :=
  ⟨[("greeting", .str "old")], .error "inner render failed", 0⟩

/-- The node of `case 2 / when y / when 2`; `y` is evaluated before the matching `2`. -/
def caseErrNode : ASTControlTag :=
  .mk "case" "2" [] [.mk "when" "y" [⟨"one"⟩] [], .mk "when" "2" [⟨"two"⟩] []]

/-- The compiled `cases` of `caseErrNode`. -/
def caseErrCases : List (caseRec Expr) :=
  [⟨.var "y", .mk "when" "y" [⟨"one"⟩] []⟩,
   ⟨.const (.int 2), .mk "when" "2" [⟨"two"⟩] []⟩]

/-- The node of `if false / else / elsif x`, whose `else` is not last. -/
def deadNode : ASTControlTag :=
  .mk "if" "false" [⟨"A"⟩]
    [.mk "else" "" [⟨"B"⟩] [], .mk "elsif" "x" [⟨"C"⟩] []]

/-- The compiled `branches` of `deadNode`. -/
def deadBranches : List (branchRec Expr) :=
  [⟨.const (.bool false), deadNode⟩,
   ⟨.const (.bool true), .mk "else" "" [⟨"B"⟩] []⟩,
   ⟨.var "x", .mk "elsif" "x" [⟨"C"⟩] []⟩]

/-- The node of `if false / else / elsif ??`, with a malformed `elsif` after `else`. -/
def deadBadNode : ASTControlTag :=
  .mk "if" "false" [⟨"A"⟩]
    [.mk "else" "" [⟨"B"⟩] [], .mk "elsif" "??" [⟨"C"⟩] []]

end Example

/-! ## Auxiliary facts -/

section Lemmas

variable {E σ : Type}

theorem ifCondition_eq (v : Value) : ifCondition v = some (!isFalsy v) := by
  cases v with
  | bool b => cases b <;> rfl
  | _ => rfl

theorem isFalsy_eq_true_iff (v : Value) :
    isFalsy v = true ↔ (v = Value.nil ∨ v = Value.bool false) := by
  cases v with
  | bool b => cases b <;> simp [isFalsy]
  | _ => simp [isFalsy]

theorem isFalsy_eq_false_iff (v : Value) :
    isFalsy v = false ↔ (v ≠ Value.nil ∧ v ≠ Value.bool false) := by
  cases v with
  | bool b => cases b <;> simp [isFalsy]
  | _ => simp [isFalsy]

theorem evaluations_append (xs ys : List E) :
    evaluations (xs ++ ys) = evaluations xs ++ evaluations ys := by
  simp [evaluations]

theorem ifRender_ok (c : RenderContext E σ) (b : branchRec E) (rest : List (branchRec E))
    (w : Writer) (s s1 : σ) (log : List (Call E)) (v : Value)
    (h : c.Evaluate b.test s = (.ok v, s1)) :
    ifRender c (b :: rest) w ⟨s, log⟩ =
      if isFalsy v then ifRender c rest w ⟨s1, log ++ [Call.evaluate b.test]⟩
      else
        (Outcome.ret (c.RenderBranch w b.body s1).1, (c.RenderBranch w b.body s1).2.1,
          ⟨(c.RenderBranch w b.body s1).2.2,
            log ++ [Call.evaluate b.test] ++ [Call.renderBranch b.body]⟩) := by
  cases hv : isFalsy v <;>
    simp [ifRender, callEvaluate, callRenderBranch, h, ifCondition_eq, hv]

theorem ifRender_error (c : RenderContext E σ) (b : branchRec E)
    (rest : List (branchRec E)) (w : Writer) (s s1 : σ) (log : List (Call E))
    (err : Error) (h : c.Evaluate b.test s = (.error err, s1)) :
    ifRender c (b :: rest) w ⟨s, log⟩ =
      (Outcome.ret (some err), w, ⟨s1, log ++ [Call.evaluate b.test]⟩) := by
  simp [ifRender, callEvaluate, h]

theorem ifRender_skip (c : RenderContext E σ) (pre rest : List (branchRec E))
    (w : Writer) (s s1 : σ) (log : List (Call E))
    (h : allFalsy c (pre.map branchRec.test) s = some s1) :
    ifRender c (pre ++ rest) w ⟨s, log⟩ =
      ifRender c rest w ⟨s1, log ++ evaluations (pre.map branchRec.test)⟩ := by
  induction pre generalizing s log with
  | nil =>
    simp only [List.map_nil, allFalsy, Option.some.injEq] at h
    simp [h, evaluations]
  | cons b pre ih =>
    rcases hE : c.Evaluate b.test s with ⟨r, s2⟩
    cases r with
    | error err => simp [allFalsy, hE] at h
    | ok v =>
      cases hv : isFalsy v with
      | false => simp [allFalsy, hE, hv] at h
      | true =>
        simp only [List.map_cons, allFalsy, hE, hv, if_true] at h
        rw [List.cons_append, ifRender_ok c b (pre ++ rest) w s s2 log v hE]
        simp only [hv, if_true]
        rw [ih s2 (log ++ [Call.evaluate b.test]) h]
        simp [evaluations]

theorem split_at (xs : List α) (k : Nat) (hk : k < xs.length) :
    xs = xs.take k ++ xs[k] :: xs.drop (k + 1) := by
  rw [List.getElem_cons_drop, List.take_append_drop]

theorem take_succ_at (xs : List α) (k : Nat) (hk : k < xs.length) :
    xs.take (k + 1) = xs.take k ++ [xs[k]] := by
  rw [List.take_succ, List.getElem?_eq_getElem hk]
  rfl

theorem ifCompileLoop_ok (X : Expressions E) (bs : List ASTControlTag)
    (acc r : List (branchRec E)) (h : ifCompileLoop X bs acc = .ok r) :
    ∃ tl, r = acc ++ tl ∧ List.Forall₂ (IfEntry X) bs tl := by
  induction bs generalizing acc with
  | nil =>
    simp only [ifCompileLoop, Except.ok.injEq] at h
    exact ⟨[], by simp [h], List.Forall₂.nil⟩
  | cons c rest ih =>
    unfold ifCompileLoop at h
    by_cases h1 : c.Name = "else"
    · simp only [h1, if_true] at h
      obtain ⟨tl, htl, hf⟩ := ih _ h
      refine ⟨(⟨X.Constant (Value.bool true), c⟩ : branchRec E) :: tl, by simp [htl],
        List.Forall₂.cons ⟨rfl, ?_, ?_, ?_⟩ hf⟩ <;> simp [h1]
    · by_cases h2 : c.Name = "elsif"
      · simp only [h2, if_true] at h
        cases hp : X.Parse c.Parameters with
        | error err => simp [hp] at h
        | ok t =>
          simp only [hp] at h
          have h3 : ¬ ("elsif" = "else") := by decide
          simp only [h3, if_false] at h
          obtain ⟨tl, htl, hf⟩ := ih _ h
          refine ⟨(⟨t, c⟩ : branchRec E) :: tl, by simp [htl],
            List.Forall₂.cons ⟨rfl, ?_, ?_, ?_⟩ hf⟩ <;> simp [h2, hp]
      · simp only [h1, h2, if_false] at h
        obtain ⟨tl, htl, hf⟩ := ih _ h
        refine ⟨(⟨X.Constant (Value.bool true), c⟩ : branchRec E) :: tl, by simp [htl],
          List.Forall₂.cons ⟨rfl, ?_, ?_, ?_⟩ hf⟩ <;> simp [h1, h2]

theorem evaluations_take_succ {β : Type} (f : β → E) (xs : List β) (k : Nat)
    (hk : k < xs.length) :
    evaluations ((xs.take (k + 1)).map f) =
      evaluations ((xs.take k).map f) ++ [Call.evaluate (f xs[k])] := by
  rw [take_succ_at xs k hk, List.map_append, evaluations_append]
  rfl

theorem renderBranch_not_mem_evaluations (es : List E) (n : ASTControlTag) :
    Call.renderBranch n ∉ evaluations es := by
  simp [evaluations]

theorem caseRenderLoop_ok (Equal : Value → Value → Bool) (c : RenderContext E σ)
    (value : Value) (b : caseRec E) (rest : List (caseRec E)) (w : Writer) (s s1 : σ)
    (log : List (Call E)) (v : Value) (h : c.Evaluate b.expr s = (.ok v, s1)) :
    caseRenderLoop Equal c value (b :: rest) w ⟨s, log⟩ =
      if Equal value v then
        (Outcome.ret (c.RenderBranch w b.node s1).1, (c.RenderBranch w b.node s1).2.1,
          ⟨(c.RenderBranch w b.node s1).2.2,
            log ++ [Call.evaluate b.expr] ++ [Call.renderBranch b.node]⟩)
      else caseRenderLoop Equal c value rest w ⟨s1, log ++ [Call.evaluate b.expr]⟩ := by
  cases hv : Equal value v <;>
    simp [caseRenderLoop, callEvaluate, callRenderBranch, h, hv]

theorem caseRenderLoop_error (Equal : Value → Value → Bool) (c : RenderContext E σ)
    (value : Value) (b : caseRec E) (rest : List (caseRec E)) (w : Writer) (s s1 : σ)
    (log : List (Call E)) (err : Error) (h : c.Evaluate b.expr s = (.error err, s1)) :
    caseRenderLoop Equal c value (b :: rest) w ⟨s, log⟩ =
      (Outcome.ret (some err), w, ⟨s1, log ++ [Call.evaluate b.expr]⟩) := by
  simp [caseRenderLoop, callEvaluate, h]

theorem caseRenderLoop_skip (Equal : Value → Value → Bool) (c : RenderContext E σ)
    (value : Value) (pre rest : List (caseRec E)) (w : Writer) (s s1 : σ)
    (log : List (Call E))
    (h : noneEqual Equal c value (pre.map caseRec.expr) s = some s1) :
    caseRenderLoop Equal c value (pre ++ rest) w ⟨s, log⟩ =
      caseRenderLoop Equal c value rest w
        ⟨s1, log ++ evaluations (pre.map caseRec.expr)⟩ := by
  induction pre generalizing s log with
  | nil =>
    simp only [List.map_nil, noneEqual, Option.some.injEq] at h
    simp [h, evaluations]
  | cons b pre ih =>
    rcases hE : c.Evaluate b.expr s with ⟨r, s2⟩
    cases r with
    | error err => simp [noneEqual, hE] at h
    | ok v =>
      cases hv : Equal value v with
      | true => simp [noneEqual, hE, hv] at h
      | false =>
        simp only [List.map_cons, noneEqual, hE, hv] at h
        rw [List.cons_append, caseRenderLoop_ok Equal c value b (pre ++ rest) w s s2 log v hE]
        simp only [hv]
        rw [if_neg (by simp), ih s2 (log ++ [Call.evaluate b.expr]) (by simpa using h)]
        simp [evaluations]

theorem caseRender_ok (Equal : Value → Value → Bool) (c : RenderContext E σ) (expr : E)
    (cases : List (caseRec E)) (w : Writer) (s s1 : σ) (log : List (Call E)) (v : Value)
    (h : c.Evaluate expr s = (.ok v, s1)) :
    caseRender Equal expr cases c w ⟨s, log⟩ =
      caseRenderLoop Equal c v cases w ⟨s1, log ++ [Call.evaluate expr]⟩ := by
  simp [caseRender, callEvaluate, h]

theorem caseTagParser_of_compile (X : Expressions E) (Equal : Value → Value → Bool)
    (node : ASTControlTag) (expr : E) (cases : List (caseRec E))
    (h : caseTagCompile X node = .ok (expr, cases)) :
    caseTagParser (σ := σ) X Equal node = .ok (caseRender Equal expr cases) := by
  simp [caseTagParser, h]

theorem ifTagParser_of_compile (X : Expressions E) (polarity : Bool)
    (node : ASTControlTag) (branches : List (branchRec E))
    (h : ifTagCompile X polarity node = .ok branches) :
    ifTagParser (σ := σ) X polarity node = .ok (fun c w st => ifRender c branches w st) := by
  simp [ifTagParser, h]

theorem ifCompileLoop_acc (X : Expressions E) (bs : List ASTControlTag)
    (acc : List (branchRec E)) :
    ifCompileLoop X bs acc = (ifCompileLoop X bs []).map (fun tl => acc ++ tl) := by
  induction bs generalizing acc with
  | nil => simp [ifCompileLoop, Except.map]
  | cons c rest ih =>
    have key : ∀ x : branchRec E,
        ifCompileLoop X rest (acc ++ [x]) =
          (ifCompileLoop X rest ([] ++ [x])).map (fun tl => acc ++ tl) := by
      intro x
      rw [ih (acc ++ [x]), ih ([] ++ [x])]
      cases ifCompileLoop X rest [] <;> simp [Except.map]
    unfold ifCompileLoop
    by_cases h1 : c.Name = "else"
    · simp only [h1, if_true]
      exact key _
    · by_cases h2 : c.Name = "elsif"
      · simp only [h1, h2, if_true, if_false]
        cases X.Parse c.Parameters with
        | error err => simp [Except.map]
        | ok t => exact key _
      · simp only [h1, h2, if_false]
        exact key _

theorem ifTagCompile_eq (X : Expressions E) (polarity : Bool) (node : ASTControlTag)
    (e0 : E) (hp : X.Parse node.Parameters = .ok e0) :
    ifTagCompile X polarity node =
      (ifCompileLoop X node.Branches []).map
        (fun tl => ⟨if polarity then e0 else X.Negate e0, node⟩ :: tl) := by
  unfold ifTagCompile
  simp only [hp]
  rw [ifCompileLoop_acc]
  cases polarity <;> simp

theorem ifCompileLoop_error_iff (X : Expressions E) (bs : List ASTControlTag)
    (acc : List (branchRec E)) :
    (∃ err, ifCompileLoop X bs acc = .error err) ↔
      ∃ b ∈ bs, b.Name = "elsif" ∧ ∃ err, X.Parse b.Parameters = .error err := by
  induction bs generalizing acc with
  | nil => simp [ifCompileLoop]
  | cons c rest ih =>
    unfold ifCompileLoop
    by_cases h1 : c.Name = "else"
    · have h3 : c.Name ≠ "elsif" := by rw [h1]; decide
      simp only [h1, if_true, ih, List.mem_cons, exists_eq_or_imp]
      simp [h3]
    · by_cases h2 : c.Name = "elsif"
      · simp only [h1, h2, if_true, if_false, List.mem_cons, exists_eq_or_imp, true_and]
        cases hp : X.Parse c.Parameters with
        | error err => simp
        | ok t => simp [ih]
      · simp only [h1, h2, if_false, ih, List.mem_cons, exists_eq_or_imp]
        simp

theorem caseCompileLoop_acc (X : Expressions E) (bs : List ASTControlTag)
    (acc : List (caseRec E)) :
    caseCompileLoop X bs acc = (caseCompileLoop X bs []).map (fun tl => acc ++ tl) := by
  induction bs generalizing acc with
  | nil => simp [caseCompileLoop, Except.map]
  | cons c rest ih =>
    unfold caseCompileLoop
    cases X.Parse c.Parameters with
    | error err => simp [Except.map]
    | ok t =>
      show caseCompileLoop X rest (acc ++ [⟨t, c⟩]) =
        (caseCompileLoop X rest ([] ++ [⟨t, c⟩])).map (fun tl => acc ++ tl)
      rw [ih (acc ++ [(⟨t, c⟩ : caseRec E)]), ih ([] ++ [(⟨t, c⟩ : caseRec E)])]
      cases caseCompileLoop X rest [] <;> simp [Except.map]

theorem caseCompileLoop_ok (X : Expressions E) (bs : List ASTControlTag)
    (tl : List (caseRec E)) (h : caseCompileLoop X bs [] = .ok tl) :
    List.Forall₂ (CaseEntry X) bs tl := by
  induction bs generalizing tl with
  | nil =>
    simp only [caseCompileLoop, Except.ok.injEq] at h
    subst h
    exact List.Forall₂.nil
  | cons c rest ih =>
    unfold caseCompileLoop at h
    cases hp : X.Parse c.Parameters with
    | error err => simp [hp] at h
    | ok t =>
      simp only [hp] at h
      rw [caseCompileLoop_acc] at h
      cases hl : caseCompileLoop X rest [] with
      | error err => simp [hl, Except.map] at h
      | ok tl' =>
        simp only [hl, Except.map, Except.ok.injEq] at h
        subst h
        exact List.Forall₂.cons ⟨rfl, hp⟩ (ih tl' hl)

theorem caseCompileLoop_error_iff (X : Expressions E) (bs : List ASTControlTag)
    (acc : List (caseRec E)) (err : Error) :
    caseCompileLoop X bs acc = .error err ↔
      firstParseError X (bs.map ASTControlTag.Parameters) = some err := by
  induction bs generalizing acc with
  | nil => simp [caseCompileLoop, firstParseError]
  | cons c rest ih =>
    unfold caseCompileLoop
    simp only [List.map_cons, firstParseError]
    cases X.Parse c.Parameters with
    | error e => simp
    | ok t => exact ih _

theorem firstParseError_eq_none_iff (X : Expressions E) (ts : List String) :
    firstParseError X ts = none ↔ ∀ t ∈ ts, ∃ e, X.Parse t = .ok e := by
  induction ts with
  | nil => simp [firstParseError]
  | cons t ts ih =>
    simp only [firstParseError, List.mem_cons, forall_eq_or_imp]
    cases X.Parse t with
    | error e => simp
    | ok e => simp [ih]

theorem caseTagCompile_error_iff (X : Expressions E) (node : ASTControlTag)
    (err : Error) :
    caseTagCompile X node = .error err ↔
      firstParseError X (node.Parameters :: node.Branches.map ASTControlTag.Parameters) =
        some err := by
  unfold caseTagCompile
  simp only [firstParseError]
  cases X.Parse node.Parameters with
  | error e => simp
  | ok e =>
    simp only
    rw [← caseCompileLoop_error_iff X node.Branches [] err]
    cases caseCompileLoop X node.Branches [] <;> simp

theorem caseTagCompile_ok (X : Expressions E) (node : ASTControlTag) (expr : E)
    (cases : List (caseRec E)) (h : caseTagCompile X node = .ok (expr, cases)) :
    X.Parse node.Parameters = .ok expr ∧ List.Forall₂ (CaseEntry X) node.Branches cases := by
  unfold caseTagCompile at h
  cases hp : X.Parse node.Parameters with
  | error e => simp [hp] at h
  | ok e =>
    simp only [hp] at h
    cases hl : caseCompileLoop X node.Branches [] with
    | error e' => simp [hl] at h
    | ok tl =>
      simp only [hl, Except.ok.injEq, Prod.mk.injEq] at h
      obtain ⟨h1, h2⟩ := h
      subst h1 h2
      exact ⟨rfl, caseCompileLoop_ok X node.Branches tl hl⟩

theorem captureRender_error (varname : String) (c : RenderContext E σ) (w : Writer)
    (s s1 : σ) (log : List (Call E)) (err : Error)
    (h : c.InnerString s = (.error err, s1)) :
    captureRender varname c w ⟨s, log⟩ =
      (Outcome.ret (some err), w, ⟨s1, log ++ [Call.innerString]⟩) := by
  simp [captureRender, callInnerString, h]

theorem caseRender_error (Equal : Value → Value → Bool) (c : RenderContext E σ)
    (expr : E) (cases : List (caseRec E)) (w : Writer) (s s1 : σ) (log : List (Call E))
    (err : Error) (h : c.Evaluate expr s = (.error err, s1)) :
    caseRender Equal expr cases c w ⟨s, log⟩ =
      (Outcome.ret (some err), w, ⟨s1, log ++ [Call.evaluate expr]⟩) := by
  simp [caseRender, callEvaluate, h]

theorem ifRender_stops_at_true (c : RenderContext E σ) (t : E)
    (ht : ∀ s, (c.Evaluate t s).1 = .ok (Value.bool true))
    (pre post : List (branchRec E)) (u : ASTControlTag) (w : Writer) (st : Run E σ) :
    ifRender c (pre ++ ⟨t, u⟩ :: post) w st = ifRender c (pre ++ [⟨t, u⟩]) w st := by
  induction pre generalizing st with
  | nil => simp [ifRender, callEvaluate, callRenderBranch, ht, ifCondition_eq, isFalsy]
  | cons b pre ih =>
    obtain ⟨s, log⟩ := st
    rcases hE : c.Evaluate b.test s with ⟨r, s1⟩
    cases r with
    | error err =>
      rw [List.cons_append, List.cons_append, ifRender_error c b _ w s s1 log err hE,
        ifRender_error c b _ w s s1 log err hE]
    | ok v =>
      rw [List.cons_append, List.cons_append, ifRender_ok c b _ w s s1 log v hE,
        ifRender_ok c b _ w s s1 log v hE, ih]

theorem ifRender_take_of_true (c : RenderContext E σ) (t : E)
    (ht : ∀ s, (c.Evaluate t s).1 = .ok (Value.bool true))
    (branches : List (branchRec E)) (k : Nat) (hk : k < branches.length)
    (hkt : branches[k].test = t) (w : Writer) (st : Run E σ) :
    ifRender c branches w st = ifRender c (branches.take (k + 1)) w st := by
  have hb : branches[k] = ⟨t, branches[k].body⟩ := by rw [← hkt]
  conv_lhs => rw [split_at branches k hk, hb]
  rw [take_succ_at branches k hk]
  conv_rhs => rw [hb]
  exact ifRender_stops_at_true c t ht _ _ _ w st

theorem caseRenderLoop_calls (Equal : Value → Value → Bool) (c : RenderContext E σ)
    (value : Value) (cases : List (caseRec E)) (w : Writer) (st : Run E σ) :
    ∃ added, (caseRenderLoop Equal c value cases w st).2.2.calls = st.calls ++ added ∧
      ∀ n, Call.renderBranch n ∈ added → ∃ r ∈ cases, r.node = n := by
  induction cases generalizing st with
  | nil => exact ⟨[], by simp [caseRenderLoop], by simp⟩
  | cons b rest ih =>
    obtain ⟨s, log⟩ := st
    rcases hE : c.Evaluate b.expr s with ⟨r, s1⟩
    cases r with
    | error err =>
      rw [caseRenderLoop_error Equal c value b rest w s s1 log err hE]
      exact ⟨[Call.evaluate b.expr], rfl, by simp⟩
    | ok v =>
      rw [caseRenderLoop_ok Equal c value b rest w s s1 log v hE]
      cases hv : Equal value v with
      | true =>
        refine ⟨[Call.evaluate b.expr, Call.renderBranch b.node], by simp, ?_⟩
        intro n hn
        simp only [List.mem_cons, List.mem_singleton, reduceCtorEq, false_or,
          Call.renderBranch.injEq, List.not_mem_nil, or_false] at hn
        exact ⟨b, by simp, hn.symm⟩
      | false =>
        obtain ⟨added, h1, h2⟩ := ih ⟨s1, log ++ [Call.evaluate b.expr]⟩
        refine ⟨Call.evaluate b.expr :: added, by simp [h1], ?_⟩
        intro n hn
        simp only [List.mem_cons, reduceCtorEq, false_or] at hn
        obtain ⟨r, hr, hrn⟩ := h2 n hn
        exact ⟨r, by simp [hr], hrn⟩

theorem caseRender_calls (Equal : Value → Value → Bool) (c : RenderContext E σ)
    (expr : E) (cases : List (caseRec E)) (w : Writer) (st : Run E σ) :
    ∃ added, (caseRender Equal expr cases c w st).2.2.calls = st.calls ++ added ∧
      ∀ n, Call.renderBranch n ∈ added → ∃ r ∈ cases, r.node = n := by
  obtain ⟨s, log⟩ := st
  rcases hE : c.Evaluate expr s with ⟨r, s1⟩
  cases r with
  | error err =>
    rw [caseRender_error Equal c expr cases w s s1 log err hE]
    exact ⟨[Call.evaluate expr], rfl, by simp⟩
  | ok v =>
    rw [caseRender_ok Equal c expr cases w s s1 log v hE]
    obtain ⟨added, h1, h2⟩ :=
      caseRenderLoop_calls Equal c v cases w ⟨s1, log ++ [Call.evaluate expr]⟩
    refine ⟨Call.evaluate expr :: added, by simp [h1], ?_⟩
    intro n hn
    simp only [List.mem_cons, reduceCtorEq, false_or] at hn
    exact h2 n hn

theorem branch_ne_node (name params : String) (body : List ASTNode)
    (branches : List ASTControlTag) (n : ASTControlTag) (h : n ∈ branches) :
    n ≠ ASTControlTag.mk name params body branches := by
  intro heq
  have hlt := List.sizeOf_lt_of_mem h
  rw [heq] at hlt
  simp only [ASTControlTag.mk.sizeOf_spec] at hlt
  omega

theorem ifTagCompile_error_iff (X : Expressions E) (polarity : Bool)
    (node : ASTControlTag) :
    (∃ err, ifTagCompile X polarity node = .error err) ↔
      ((∃ err, X.Parse node.Parameters = .error err) ∨
        ∃ b ∈ node.Branches, b.Name = "elsif" ∧
          ∃ err, X.Parse b.Parameters = .error err) := by
  cases hp : X.Parse node.Parameters with
  | error err => simp [ifTagCompile, hp]
  | ok e0 =>
    rw [← ifCompileLoop_error_iff X node.Branches []]
    rw [ifTagCompile_eq X polarity node e0 hp]
    cases ifCompileLoop X node.Branches [] <;> simp [Except.map]

theorem getElem_append_cons_length {α : Type} (pre post : List α) (u : α)
    (h : pre.length < (pre ++ u :: post).length) :
    (pre ++ u :: post)[pre.length] = u := by
  induction pre with
  | nil => rfl
  | cons a pre ih => simpa using ih (by simp)

end Lemmas

/-! ## The `if` / `unless` render step -/

/-- C1: in a render step built by `ifTagParser`, when the tests of branches `0..k-1`
evaluate to falsy values and the test of branch `k` evaluates to a truthy value, the
step evaluates the tests `0..k` and nothing after them, calls `RenderBranch` once, on
the body of branch `k` (the tag node itself when `k = 0`), and returns the error,
writer and state of that call. -/
theorem ifTagParser_renders_first_truthy {E σ : Type} (X : Expressions E)
    (polarity : Bool) (node : ASTControlTag) (branches : List (branchRec E))
    (hc : ifTagCompile X polarity node = .ok branches)
    (c : RenderContext E σ) (w : Writer) (s s1 s2 : σ) (log : List (Call E))
    (k : Nat) (hk : k < branches.length) (v : Value)
    (hfalsy : allFalsy c ((branches.take k).map branchRec.test) s = some s1)
    (heval : c.Evaluate branches[k].test s1 = (.ok v, s2))
    (htruthy : isFalsy v = false) :
    ∃ render : RenderFunc E σ, ifTagParser X polarity node = .ok render ∧
      render c w ⟨s, log⟩ =
        (Outcome.ret (c.RenderBranch w branches[k].body s2).1,
          (c.RenderBranch w branches[k].body s2).2.1,
          ⟨(c.RenderBranch w branches[k].body s2).2.2,
            log ++ evaluations ((branches.take (k + 1)).map branchRec.test) ++
              [Call.renderBranch branches[k].body]⟩) ∧
      (k = 0 → branches[k].body = node) := by
  refine ⟨fun c w st => ifRender c branches w st, by simp [ifTagParser, hc], ?_, ?_⟩
  · show ifRender c branches w ⟨s, log⟩ = _
    conv_lhs => rw [split_at branches k hk]
    rw [ifRender_skip c _ _ w s s1 log hfalsy, ifRender_ok c _ _ w s1 s2 _ v heval]
    rw [evaluations_take_succ branchRec.test branches k hk]
    simp [htruthy]
  · intro hk0
    subst hk0
    unfold ifTagCompile at hc
    cases hp : X.Parse node.Parameters with
    | error err => simp [hp] at hc
    | ok e =>
      simp only [hp] at hc
      obtain ⟨tl, htl, -⟩ := ifCompileLoop_ok X _ _ _ hc
      subst htl
      rfl

/-- C1, on `if false / elsif true / else`: the render step evaluates two tests and
renders the `elsif` body `B`. -/
theorem ifTagParser_renders_first_truthy_witness :
    ∃ render : RenderFunc Example.Expr Example.State,
      ifTagParser Example.exprs true Example.ifNode = .ok render ∧
      render Example.context [] ⟨Example.start, []⟩ =
        (Outcome.ret none, ["B"],
          ⟨⟨[], .ok "hi", 2⟩,
            [Call.evaluate (.const (.bool false)), Call.evaluate (.const (.bool true)),
              Call.renderBranch (.mk "elsif" "true" [⟨"B"⟩] [])]⟩) := by
  obtain ⟨r, h1, h2, -⟩ :=
    ifTagParser_renders_first_truthy Example.exprs true Example.ifNode Example.ifBranches
      rfl Example.context [] Example.start ⟨[], .ok "hi", 1⟩ ⟨[], .ok "hi", 2⟩ [] 1
      (by decide) (.bool true) rfl rfl rfl
  exact ⟨r, h1, h2⟩

/-- C2: the value of an evaluated test selects its branch exactly when it is neither
nil nor the boolean `false`; the comparison never fails, and the integer `0`, the empty
string and every slice and map (empty ones included) select the branch. -/
theorem ifRender_takes_branch_iff_truthy {E σ : Type} (c : RenderContext E σ)
    (b : branchRec E) (rest : List (branchRec E)) (w : Writer) (s s1 : σ)
    (log : List (Call E)) (v : Value) (heval : c.Evaluate b.test s = (.ok v, s1)) :
    (ifCondition v = some true ↔ (v ≠ Value.nil ∧ v ≠ Value.bool false)) ∧
    (ifCondition v = some false ↔ (v = Value.nil ∨ v = Value.bool false)) ∧
    ((v ≠ Value.nil ∧ v ≠ Value.bool false) →
      ifRender c (b :: rest) w ⟨s, log⟩ =
        (Outcome.ret (c.RenderBranch w b.body s1).1, (c.RenderBranch w b.body s1).2.1,
          ⟨(c.RenderBranch w b.body s1).2.2,
            log ++ [Call.evaluate b.test] ++ [Call.renderBranch b.body]⟩)) ∧
    ((v = Value.nil ∨ v = Value.bool false) →
      ifRender c (b :: rest) w ⟨s, log⟩ =
        ifRender c rest w ⟨s1, log ++ [Call.evaluate b.test]⟩) ∧
    ifCondition (Value.int 0) = some true ∧
    ifCondition (Value.str "") = some true ∧
    (∀ xs, ifCondition (Value.slice xs) = some true) ∧
    (∀ kvs, ifCondition (Value.map kvs) = some true) := by
  refine ⟨?_, ?_, ?_, ?_, rfl, rfl, fun _ => rfl, fun _ => rfl⟩
  · rw [ifCondition_eq, ← isFalsy_eq_false_iff]
    cases isFalsy v <;> simp
  · rw [ifCondition_eq, ← isFalsy_eq_true_iff]
    cases isFalsy v <;> simp
  · intro h
    rw [ifRender_ok c b rest w s s1 log v heval, (isFalsy_eq_false_iff v).2 h]
    simp
  · intro h
    rw [ifRender_ok c b rest w s s1 log v heval, (isFalsy_eq_true_iff v).2 h]
    simp

/-- C2, on the test value `0`: the branch is rendered. -/
theorem ifRender_takes_branch_iff_truthy_witness :
    ifRender Example.context
        [⟨Example.Expr.const (Value.int 0), Example.ifNode⟩, ⟨.var "y", Example.ifNode⟩]
        [] ⟨Example.start, []⟩ =
      (Outcome.ret none, ["A"],
        ⟨⟨[], .ok "hi", 1⟩,
          [Call.evaluate (.const (Value.int 0)), Call.renderBranch Example.ifNode]⟩) :=
  (ifRender_takes_branch_iff_truthy Example.context
    ⟨Example.Expr.const (Value.int 0), Example.ifNode⟩ [⟨.var "y", Example.ifNode⟩] []
    Example.start ⟨[], .ok "hi", 1⟩ [] (Value.int 0) rfl).2.2.1
    ⟨(fun h => nomatch h), (fun h => nomatch h)⟩

/-- C3: when every test of an `if` / `unless` chain evaluates to a falsy value, or the
subject and every candidate of a `case` evaluate and no candidate is `Equal` to the
subject (in particular when the `case` has no `when` at all), the render step returns
a nil error, makes no call other than the evaluations, and leaves the writer as it
was. -/
theorem no_match_renders_nothing {E σ : Type} (X : Expressions E)
    (Equal : Value → Value → Bool) (c : RenderContext E σ) (w : Writer) (s s1 : σ)
    (log : List (Call E)) :
    (∀ polarity node branches, ifTagCompile X polarity node = .ok branches →
      allFalsy c (branches.map branchRec.test) s = some s1 →
      ∃ render : RenderFunc E σ, ifTagParser X polarity node = .ok render ∧
        render c w ⟨s, log⟩ =
          (Outcome.ret none, w,
            ⟨s1, log ++ evaluations (branches.map branchRec.test)⟩)) ∧
    (∀ node expr cases v s0, caseTagCompile X node = .ok (expr, cases) →
      c.Evaluate expr s = (.ok v, s0) →
      noneEqual Equal c v (cases.map caseRec.expr) s0 = some s1 →
      ∃ render : RenderFunc E σ, caseTagParser X Equal node = .ok render ∧
        render c w ⟨s, log⟩ =
          (Outcome.ret none, w,
            ⟨s1, log ++ Call.evaluate expr :: evaluations (cases.map caseRec.expr)⟩)) ∧
    (∀ node expr v, node.Branches = [] → X.Parse node.Parameters = .ok expr →
      c.Evaluate expr s = (.ok v, s1) →
      ∃ render : RenderFunc E σ, caseTagParser X Equal node = .ok render ∧
        render c w ⟨s, log⟩ =
          (Outcome.ret none, w, ⟨s1, log ++ [Call.evaluate expr]⟩)) ∧
    (∀ (es : List E) (n : ASTControlTag), Call.renderBranch n ∉ evaluations es) := by
  refine ⟨?_, ?_, ?_, renderBranch_not_mem_evaluations⟩
  · intro polarity node branches hc hf
    refine ⟨_, ifTagParser_of_compile X polarity node branches hc, ?_⟩
    have h := ifRender_skip c branches [] w s s1 log hf
    simpa [ifRender] using h
  · intro node expr cases v s0 hc he hn
    refine ⟨_, caseTagParser_of_compile X Equal node expr cases hc, ?_⟩
    rw [caseRender_ok Equal c expr cases w s s0 log v he]
    have h := caseRenderLoop_skip Equal c v cases [] w s0 s1
      (log ++ [Call.evaluate expr]) hn
    simpa [caseRenderLoop] using h
  · intro node expr v hb hp he
    have hc : caseTagCompile X node = .ok (expr, []) := by
      simp [caseTagCompile, hp, hb, caseCompileLoop]
    refine ⟨_, caseTagParser_of_compile X Equal node expr [] hc, ?_⟩
    rw [caseRender_ok Equal c expr [] w s s1 log v he]
    rfl

/-- C3, on `if x / elsif y` with `x` false and `y` nil, on `case 0 / when 1 / when 2`
and on a `case x` without branches: nothing is written. -/
theorem no_match_renders_nothing_witness :
    (∃ render : RenderFunc Example.Expr Example.State,
      ifTagParser Example.exprs true Example.ifVarNode = .ok render ∧
      render Example.context ["before"] ⟨Example.xyFalsy, []⟩ =
        (Outcome.ret none, ["before"],
          ⟨{ Example.xyFalsy with evals := 2 },
            [Call.evaluate (.var "x"), Call.evaluate (.var "y")]⟩)) ∧
    (∃ render : RenderFunc Example.Expr Example.State,
      caseTagParser Example.exprs Example.equal Example.caseMissNode = .ok render ∧
      render Example.context ["before"] ⟨Example.start, []⟩ =
        (Outcome.ret none, ["before"],
          ⟨{ Example.start with evals := 3 },
            [Call.evaluate (.const (.int 0)), Call.evaluate (.const (.int 1)),
              Call.evaluate (.const (.int 2))]⟩)) ∧
    (∃ render : RenderFunc Example.Expr Example.State,
      caseTagParser Example.exprs Example.equal Example.caseEmptyNode = .ok render ∧
      render Example.context ["before"] ⟨Example.xFalse, []⟩ =
        (Outcome.ret none, ["before"],
          ⟨{ Example.xFalse with evals := 1 }, [Call.evaluate (.var "x")]⟩)) :=
  ⟨(no_match_renders_nothing Example.exprs Example.equal Example.context ["before"]
      Example.xyFalsy { Example.xyFalsy with evals := 2 } []).1
      true Example.ifVarNode Example.ifVarBranches rfl rfl,
   (no_match_renders_nothing Example.exprs Example.equal Example.context ["before"]
      Example.start { Example.start with evals := 3 } []).2.1
      Example.caseMissNode (.const (.int 0)) Example.caseMissCases (.int 0)
      { Example.start with evals := 1 } rfl rfl rfl,
   (no_match_renders_nothing Example.exprs Example.equal Example.context ["before"]
      Example.xFalse { Example.xFalse with evals := 1 } []).2.2.1
      Example.caseEmptyNode (.var "x") (.bool false) rfl rfl rfl⟩

/-- C4: when the tests of branches `0..k-1` evaluate to falsy values and the test of
branch `k` fails with error `err`, the render step returns `err`, has evaluated the
tests `0..k` only, has made no `RenderBranch` call and leaves the writer as it was. -/
theorem ifTagParser_propagates_test_error {E σ : Type} (X : Expressions E)
    (polarity : Bool) (node : ASTControlTag) (branches : List (branchRec E))
    (hc : ifTagCompile X polarity node = .ok branches)
    (c : RenderContext E σ) (w : Writer) (s s1 s2 : σ) (log : List (Call E))
    (k : Nat) (hk : k < branches.length) (err : Error)
    (hfalsy : allFalsy c ((branches.take k).map branchRec.test) s = some s1)
    (heval : c.Evaluate branches[k].test s1 = (.error err, s2)) :
    ∃ render : RenderFunc E σ, ifTagParser X polarity node = .ok render ∧
      render c w ⟨s, log⟩ =
        (Outcome.ret (some err), w,
          ⟨s2, log ++ evaluations ((branches.take (k + 1)).map branchRec.test)⟩) ∧
      ∀ n, Call.renderBranch n ∉
        evaluations ((branches.take (k + 1)).map branchRec.test) := by
  refine ⟨_, ifTagParser_of_compile X polarity node branches hc, ?_,
    fun n => renderBranch_not_mem_evaluations _ n⟩
  show ifRender c branches w ⟨s, log⟩ = _
  conv_lhs => rw [split_at branches k hk]
  rw [ifRender_skip c _ _ w s s1 log hfalsy, ifRender_error c _ _ w s1 s2 _ err heval,
    evaluations_take_succ branchRec.test branches k hk]
  simp

/-- C4, on `if x / elsif y` with `x` false and `y` unbound: the error of evaluating
`y` is returned and nothing is written. -/
theorem ifTagParser_propagates_test_error_witness :
    ∃ render : RenderFunc Example.Expr Example.State,
      ifTagParser Example.exprs true Example.ifVarNode = .ok render ∧
      render Example.context ["before"] ⟨Example.xFalse, []⟩ =
        (Outcome.ret (some "undefined variable y"), ["before"],
          ⟨{ Example.xFalse with evals := 2 },
            [Call.evaluate (.var "x"), Call.evaluate (.var "y")]⟩) := by
  obtain ⟨r, h1, h2, -⟩ :=
    ifTagParser_propagates_test_error Example.exprs true Example.ifVarNode
      Example.ifVarBranches rfl Example.context ["before"] Example.xFalse
      { Example.xFalse with evals := 1 } { Example.xFalse with evals := 2 } [] 1
      (by decide) "undefined variable y" rfl rfl
  exact ⟨r, h1, h2⟩

/-! ## Compilation of `if` / `unless` -/

/-- C5: for a node whose primary parameter parses to `e0`, the branch list compiled by
`ifTagParser(false)` is the one `ifTagParser(true)` compiles for a node with the same
branches whose primary test is `Negate(e0)`: only the head test differs from the `if`
list of the node itself, the other entries are the same.  Hence, when `Negate(e0)`
evaluates to a truthy value exactly when `e0` evaluates to a falsy one, `unless e0`
renders its own body when `e0` is falsy and otherwise goes on with the remaining
entries of the `if` chain. -/
theorem unless_is_if_on_negated_primary {E σ : Type} (X : Expressions E)
    (node : ASTControlTag) (e0 : E) (hp : X.Parse node.Parameters = .ok e0) :
    (∀ node' : ASTControlTag, X.Parse node'.Parameters = .ok (X.Negate e0) →
      node'.Branches = node.Branches →
      ifTagCompile X false node =
        (ifTagCompile X true node').map
          (fun bs => bs.modifyHead (fun b => ⟨b.test, node⟩))) ∧
    (∀ ifBranches, ifTagCompile X true node = .ok ifBranches →
      ifBranches.head? = some ⟨e0, node⟩ ∧
      ifTagCompile X false node = .ok (⟨X.Negate e0, node⟩ :: ifBranches.tail)) ∧
    (∀ (c : RenderContext E σ) (w : Writer) (s s1 s2 : σ) (log : List (Call E))
        (v v' : Value) (ifBranches : List (branchRec E)),
      ifTagCompile X true node = .ok ifBranches →
      c.Evaluate e0 s = (.ok v, s1) → c.Evaluate (X.Negate e0) s = (.ok v', s2) →
      isFalsy v' = !isFalsy v →
      ∃ render : RenderFunc E σ, ifTagParser X false node = .ok render ∧
        render c w ⟨s, log⟩ =
          if isFalsy v then
            (Outcome.ret (c.RenderBranch w node s2).1, (c.RenderBranch w node s2).2.1,
              ⟨(c.RenderBranch w node s2).2.2,
                log ++ [Call.evaluate (X.Negate e0)] ++ [Call.renderBranch node]⟩)
          else ifRender c ifBranches.tail w ⟨s2, log ++ [Call.evaluate (X.Negate e0)]⟩) := by
  have hif := ifTagCompile_eq X true node e0 hp
  have hun := ifTagCompile_eq X false node e0 hp
  simp only [if_true, Bool.false_eq_true, if_false] at hif hun
  refine ⟨?_, ?_, ?_⟩
  · intro node' hp' hb
    rw [hun, ifTagCompile_eq X true node' _ hp', hb]
    cases ifCompileLoop X node.Branches [] <;> simp [Except.map]
  · intro ifBranches hc
    rw [hif] at hc
    rw [hun]
    cases hl : ifCompileLoop X node.Branches [] with
    | error err => simp [hl, Except.map] at hc
    | ok tl =>
      simp only [hl, Except.map, Except.ok.injEq] at hc
      subst hc
      simp [Except.map]
  · intro c w s s1 s2 log v v' ifBranches hc _ hv' hff
    rw [hif] at hc
    cases hl : ifCompileLoop X node.Branches [] with
    | error err => simp [hl, Except.map] at hc
    | ok tl =>
      simp only [hl, Except.map, Except.ok.injEq] at hc
      subst hc
      have hc' : ifTagCompile X false node = .ok (⟨X.Negate e0, node⟩ :: tl) := by
        rw [hun, hl]; rfl
      refine ⟨_, ifTagParser_of_compile X false node _ hc', ?_⟩
      show ifRender c (⟨X.Negate e0, node⟩ :: tl) w ⟨s, log⟩ = _
      rw [ifRender_ok c ⟨X.Negate e0, node⟩ tl w s s2 log v' hv', hff]
      cases isFalsy v <;> simp

/-- C5, on `unless true / else`: the compiled list is the one of `if not true / else`
up to the node of the head entry, and the render step falls through to the `else`
body `B`. -/
theorem unless_is_if_on_negated_primary_witness :
    ifTagCompile Example.exprs false Example.unlessNode =
      (ifTagCompile Example.exprs true Example.ifNotNode).map
        (fun bs => bs.modifyHead (fun b => ⟨b.test, Example.unlessNode⟩)) ∧
    ∃ render : RenderFunc Example.Expr Example.State,
      ifTagParser Example.exprs false Example.unlessNode = .ok render ∧
      render Example.context [] ⟨Example.start, []⟩ =
        (Outcome.ret none, ["B"],
          ⟨{ Example.start with evals := 2 },
            [Call.evaluate (.not (.const (.bool true))),
              Call.evaluate (.const (.bool true)),
              Call.renderBranch (.mk "else" "" [⟨"B"⟩] [])]⟩) :=
  ⟨(unless_is_if_on_negated_primary (σ := Example.State) Example.exprs
      Example.unlessNode (.const (.bool true)) rfl).1 Example.ifNotNode rfl rfl,
   (unless_is_if_on_negated_primary Example.exprs Example.unlessNode
      (.const (.bool true)) rfl).2.2 Example.context [] Example.start
      { Example.start with evals := 1 } { Example.start with evals := 1 } []
      (.bool true) (.bool false)
      [⟨.const (.bool true), Example.unlessNode⟩,
        ⟨.const (.bool true), .mk "else" "" [⟨"B"⟩] []⟩] rfl rfl rfl rfl⟩

/-- C6: when `ifTagParser` succeeds, the compiled list has `1 + len(node.Branches)`
entries in declared order: entry `0` pairs the parsed primary test (negated for
`unless`) with the node itself, and entry `i + 1` pairs the node of branch `i` with
`Constant(true)` when the branch is named `else`, with the parse of its parameters
when it is named `elsif`, and with `Constant(true)` for any other name. -/
theorem ifTagCompile_entries {E : Type} (X : Expressions E) (polarity : Bool)
    (node : ASTControlTag) (branches : List (branchRec E))
    (hc : ifTagCompile X polarity node = .ok branches) :
    branches.length = 1 + node.Branches.length ∧
    (∃ e0, X.Parse node.Parameters = .ok e0 ∧
      branches.head? = some ⟨if polarity then e0 else X.Negate e0, node⟩) ∧
    ∀ (i : Nat) (hi : i < node.Branches.length) (hi' : i + 1 < branches.length),
      branches[i + 1].body = node.Branches[i] ∧
      (node.Branches[i].Name = "else" →
        branches[i + 1].test = X.Constant (Value.bool true)) ∧
      (node.Branches[i].Name = "elsif" →
        X.Parse node.Branches[i].Parameters = .ok branches[i + 1].test) ∧
      (node.Branches[i].Name ≠ "else" → node.Branches[i].Name ≠ "elsif" →
        branches[i + 1].test = X.Constant (Value.bool true)) := by
  cases hp : X.Parse node.Parameters with
  | error err => simp [ifTagCompile, hp] at hc
  | ok e0 =>
    rw [ifTagCompile_eq X polarity node e0 hp] at hc
    cases hl : ifCompileLoop X node.Branches [] with
    | error err => simp [hl, Except.map] at hc
    | ok tl =>
      simp only [hl, Except.map, Except.ok.injEq] at hc
      subst hc
      obtain ⟨tl', htl, hf⟩ := ifCompileLoop_ok X node.Branches [] tl hl
      simp only [List.nil_append] at htl
      subst htl
      obtain ⟨hlen, hget⟩ := List.forall₂_iff_get.1 hf
      refine ⟨by simp [hlen]; omega, ⟨e0, rfl, rfl⟩, ?_⟩
      intro i hi hi'
      have h := hget i hi (by simpa using hi')
      simpa [IfEntry] using h

/-- C6, on `if false / elsif true / else`: three entries, in order. -/
theorem ifTagCompile_entries_witness :
    Example.ifBranches.length = 1 + Example.ifNode.Branches.length ∧
    Example.ifBranches.head? = some ⟨.const (.bool false), Example.ifNode⟩ :=
  ⟨(ifTagCompile_entries Example.exprs true Example.ifNode Example.ifBranches rfl).1,
    rfl⟩

/-- C7 (as stated) fails on `if false / elsif true / else`: the parameter text of the
`else` branch is empty, which the parser rejects, and compilation succeeds. -/
theorem ifTagParser_malformed_else_counterexample :
    ¬ (((∃ err, Example.exprs.Parse Example.ifNode.Parameters = .error err) ∨
        ∃ b ∈ Example.ifNode.Branches, ∃ err,
          Example.exprs.Parse b.Parameters = .error err) →
      ∃ err, ifTagParser (σ := Example.State) Example.exprs true Example.ifNode =
        .error err) := by
  intro h
  have hmal : (∃ err, Example.exprs.Parse Example.ifNode.Parameters = .error err) ∨
      ∃ b ∈ Example.ifNode.Branches, ∃ err,
        Example.exprs.Parse b.Parameters = .error err :=
    Or.inr ⟨.mk "else" "" [⟨"C"⟩] [], by simp [Example.ifNode, ASTControlTag.Branches],
      "syntax error in ", rfl⟩
  obtain ⟨err, herr⟩ := h hmal
  rw [ifTagParser_of_compile Example.exprs true Example.ifNode Example.ifBranches rfl]
    at herr
  cases herr

/-- C7 (amended): `ifTagParser` reports a compile error, and so returns no render
function, exactly when parsing fails on the primary parameter text or on the
parameter text of a branch named `elsif`; the parameter texts of the other branches
are not parsed. -/
theorem ifTagParser_error_iff {E σ : Type} (X : Expressions E) (polarity : Bool)
    (node : ASTControlTag) :
    (∃ err, ifTagParser (σ := σ) X polarity node = .error err) ↔
      ((∃ err, X.Parse node.Parameters = .error err) ∨
        ∃ b ∈ node.Branches, b.Name = "elsif" ∧
          ∃ err, X.Parse b.Parameters = .error err) := by
  have hpar : (∃ err, ifTagParser (σ := σ) X polarity node = .error err) ↔
      ∃ err, ifTagCompile X polarity node = .error err := by
    unfold ifTagParser
    cases ifTagCompile X polarity node <;> simp
  rw [hpar]
  cases hp : X.Parse node.Parameters with
  | error err => simp [ifTagCompile, hp]
  | ok e0 =>
    rw [← ifCompileLoop_error_iff X node.Branches []]
    rw [ifTagCompile_eq X polarity node e0 hp]
    cases ifCompileLoop X node.Branches [] <;> simp [Except.map]

/-! ## The `case` tag -/

/-- C8: in a render step built by `caseTagParser`, when the subject evaluates to `v`,
the candidates of the `when` branches `0..k-1` evaluate to values that `Equal` does
not relate to `v`, and the candidate of branch `k` evaluates to `b` with
`Equal v b`, the step evaluates the subject once, then the candidates `0..k` and
nothing after them, calls `RenderBranch` once, on the node of `when` branch `k`, and
returns the error, writer and state of that call. -/
theorem caseTagParser_renders_first_equal {E σ : Type} (X : Expressions E)
    (Equal : Value → Value → Bool) (node : ASTControlTag) (expr : E)
    (cases : List (caseRec E)) (hc : caseTagCompile X node = .ok (expr, cases))
    (c : RenderContext E σ) (w : Writer) (s s0 s1 s2 : σ) (log : List (Call E))
    (k : Nat) (hk : k < cases.length) (v b : Value)
    (hsubj : c.Evaluate expr s = (.ok v, s0))
    (hmiss : noneEqual Equal c v ((cases.take k).map caseRec.expr) s0 = some s1)
    (heval : c.Evaluate cases[k].expr s1 = (.ok b, s2))
    (heq : Equal v b = true) :
    ∃ render : RenderFunc E σ, caseTagParser X Equal node = .ok render ∧
      render c w ⟨s, log⟩ =
        (Outcome.ret (c.RenderBranch w cases[k].node s2).1,
          (c.RenderBranch w cases[k].node s2).2.1,
          ⟨(c.RenderBranch w cases[k].node s2).2.2,
            log ++ [Call.evaluate expr] ++
              evaluations ((cases.take (k + 1)).map caseRec.expr) ++
              [Call.renderBranch cases[k].node]⟩) ∧
      node.Branches[k]? = some cases[k].node := by
  refine ⟨_, caseTagParser_of_compile X Equal node expr cases hc, ?_, ?_⟩
  · rw [caseRender_ok Equal c expr cases w s s0 log v hsubj]
    conv_lhs => rw [split_at cases k hk]
    rw [caseRenderLoop_skip Equal c v _ _ w s0 s1 _ hmiss,
      caseRenderLoop_ok Equal c v _ _ w s1 s2 _ b heval,
      evaluations_take_succ caseRec.expr cases k hk]
    simp [heq]
  · obtain ⟨-, hf⟩ := caseTagCompile_ok X node expr cases hc
    obtain ⟨hlen, hget⟩ := List.forall₂_iff_get.1 hf
    have hk' : k < node.Branches.length := by omega
    rw [List.getElem?_eq_getElem hk']
    have h := (hget k hk' hk).1
    simp only [List.get_eq_getElem] at h
    rw [h]

/-- C8, on `case 2 / when 1 / when 2 / when 3`: the subject and two candidates are
evaluated and the body `two` is rendered. -/
theorem caseTagParser_renders_first_equal_witness :
    ∃ render : RenderFunc Example.Expr Example.State,
      caseTagParser Example.exprs Example.equal Example.caseNode = .ok render ∧
      render Example.context [] ⟨Example.start, []⟩ =
        (Outcome.ret none, ["two"],
          ⟨{ Example.start with evals := 3 },
            [Call.evaluate (.const (.int 2)), Call.evaluate (.const (.int 1)),
              Call.evaluate (.const (.int 2)),
              Call.renderBranch (.mk "when" "2" [⟨"two"⟩] [])]⟩) := by
  obtain ⟨r, h1, h2, -⟩ :=
    caseTagParser_renders_first_equal Example.exprs Example.equal Example.caseNode
      (.const (.int 2)) Example.caseCases rfl Example.context [] Example.start
      { Example.start with evals := 1 } { Example.start with evals := 2 }
      { Example.start with evals := 3 } [] 1 (by decide) (.int 2) (.int 2) rfl rfl rfl rfl
  exact ⟨r, h1, h2⟩

/-- C9: `caseTagParser` succeeds exactly when parsing succeeds on the primary
parameters and on the parameters of every branch; the compiled list then has one
entry per branch, in order, pairing the parsed candidate with the branch node; and it
fails with error `err` exactly when `err` is the first parse error met on the primary
parameters and then on the branches in order. -/
theorem caseTagParser_compiles_iff_all_parse {E σ : Type} (X : Expressions E)
    (Equal : Value → Value → Bool) (node : ASTControlTag) :
    ((∃ render, caseTagParser (σ := σ) X Equal node = .ok render) ↔
      ((∃ e, X.Parse node.Parameters = .ok e) ∧
        ∀ b ∈ node.Branches, ∃ e, X.Parse b.Parameters = .ok e)) ∧
    (∀ render, caseTagParser (σ := σ) X Equal node = .ok render →
      ∃ expr cases, caseTagCompile X node = .ok (expr, cases) ∧
        render = caseRender Equal expr cases ∧
        X.Parse node.Parameters = .ok expr ∧
        cases.length = node.Branches.length ∧
        ∀ (i : Nat) (h1 : i < node.Branches.length) (h2 : i < cases.length),
          cases[i].node = node.Branches[i] ∧
          X.Parse node.Branches[i].Parameters = .ok cases[i].expr) ∧
    (∀ err, caseTagParser (σ := σ) X Equal node = .error err ↔
      firstParseError X
        (node.Parameters :: node.Branches.map ASTControlTag.Parameters) = some err) := by
  have herr : ∀ err, caseTagParser (σ := σ) X Equal node = .error err ↔
      caseTagCompile X node = .error err := by
    intro err
    unfold caseTagParser
    cases caseTagCompile X node <;> simp
  refine ⟨?_, ?_, ?_⟩
  · have hnone := firstParseError_eq_none_iff X
      (node.Parameters :: node.Branches.map ASTControlTag.Parameters)
    simp only [List.mem_cons, List.mem_map, forall_eq_or_imp, forall_exists_index,
      and_imp, forall_apply_eq_imp_iff₂] at hnone
    rw [← hnone]
    cases hc : caseTagParser (σ := σ) X Equal node with
    | error err =>
      have h := (caseTagCompile_error_iff X node err).1 ((herr err).1 hc)
      refine ⟨fun hex => ?_, fun hnil => ?_⟩
      · obtain ⟨r, hr⟩ := hex
        cases hr
      · rw [h] at hnil
        cases hnil
    | ok render =>
      refine ⟨fun _ => ?_, fun _ => ⟨render, rfl⟩⟩
      cases hf : firstParseError X
          (node.Parameters :: node.Branches.map ASTControlTag.Parameters) with
      | none => rfl
      | some err =>
        have h := (herr err).2 ((caseTagCompile_error_iff X node err).2 hf)
        rw [hc] at h
        cases h
  · intro render hr
    unfold caseTagParser at hr
    cases hc : caseTagCompile X node with
    | error err => simp [hc] at hr
    | ok r =>
      obtain ⟨expr, cases⟩ := r
      simp only [hc, Except.ok.injEq] at hr
      obtain ⟨hp, hf⟩ := caseTagCompile_ok X node expr cases hc
      obtain ⟨hlen, hget⟩ := List.forall₂_iff_get.1 hf
      refine ⟨expr, cases, rfl, hr.symm, hp, hlen.symm, ?_⟩
      intro i h1 h2
      simpa [CaseEntry] using hget i h1 h2
  · intro err
    rw [herr err, caseTagCompile_error_iff]

/-- C9, on `case 2 / when 1 / when ??`: the error is the one of the malformed second
candidate; and on `case 2 / when 1 / when 2 / when 3`: three entries. -/
theorem caseTagParser_compiles_iff_all_parse_witness :
    caseTagParser (σ := Example.State) Example.exprs Example.equal Example.caseBadNode =
      .error "syntax error in ??" ∧
    ∃ expr cases, caseTagCompile Example.exprs Example.caseNode = .ok (expr, cases) ∧
      cases.length = Example.caseNode.Branches.length := by
  refine ⟨((caseTagParser_compiles_iff_all_parse Example.exprs Example.equal
    Example.caseBadNode).2.2 "syntax error in ??").2 rfl, ?_⟩
  obtain ⟨expr, cases, h1, -, -, h2, -⟩ :=
    (caseTagParser_compiles_iff_all_parse (σ := Example.State) Example.exprs
      Example.equal Example.caseNode).2.1 _ rfl
  exact ⟨expr, cases, h1, h2⟩

/-! ## The `capture` tag -/

/-- C10: when `InnerString` succeeds with the string `str` (the empty string
included), the capture render step makes exactly the calls `InnerString` and then
`Set(node.Parameters, str)`, with the raw parameter text as the name, and returns a
nil error; with a scope in which a variable reads back the value last set, the
variable is bound to `str` afterwards, whatever it was bound to before. -/
theorem captureTagParser_binds_inner_string {E σ : Type} (node : ASTControlTag)
    (c : RenderContext E σ) (w : Writer) (s s1 : σ) (log : List (Call E)) (str : String)
    (hinner : c.InnerString s = (.ok str, s1)) :
    ∃ render : RenderFunc E σ, captureTagParser node = .ok render ∧
      render c w ⟨s, log⟩ =
        (Outcome.ret none, w,
          ⟨c.Set node.Parameters (Value.str str) s1,
            log ++ [Call.innerString, Call.set node.Parameters (Value.str str)]⟩) ∧
      ∀ lookup : σ → String → Option Value,
        (∀ name value st, lookup (c.Set name value st) name = some value) →
        lookup (render c w ⟨s, log⟩).2.2.ctx node.Parameters = some (Value.str str) := by
  have hrun : captureRender node.Parameters c w ⟨s, log⟩ =
      (Outcome.ret none, w,
        ⟨c.Set node.Parameters (Value.str str) s1,
          log ++ [Call.innerString, Call.set node.Parameters (Value.str str)]⟩) := by
    simp [captureRender, callInnerString, callSet, hinner]
  refine ⟨captureRender node.Parameters, rfl, hrun, ?_⟩
  intro lookup hlaw
  rw [hrun]
  exact hlaw _ _ _

/-- C10, on `capture greeting` with an empty inner text and `greeting` bound to
`old`: the variable reads back as the empty string. -/
theorem captureTagParser_binds_inner_string_witness :
    ∃ render : RenderFunc Example.Expr Example.State,
      captureTagParser Example.captureNode = .ok render ∧
      render Example.context ["before"] ⟨Example.bound, []⟩ =
        (Outcome.ret none, ["before"],
          ⟨⟨[("greeting", .str ""), ("greeting", .str "old")], .ok "", 0⟩,
            [Call.innerString, Call.set "greeting" (.str "")]⟩) ∧
      Example.lookup (render Example.context ["before"] ⟨Example.bound, []⟩).2.2.ctx
        "greeting" = some (.str "") := by
  obtain ⟨r, h1, h2, h3⟩ :=
    captureTagParser_binds_inner_string Example.captureNode Example.context ["before"]
      Example.bound Example.bound [] "" rfl
  refine ⟨r, h1, h2, h3 Example.lookup ?_⟩
  intro name value st
  simp [Example.lookup, Example.context, List.lookup]

/-- C11: when `InnerString` fails with error `err`, the capture render step returns
`err`, makes no call other than `InnerString` (so no `Set`), and leaves the context
in the state `InnerString` left it in: a binding that `InnerString` did not change
reads as before. -/
theorem captureTagParser_propagates_inner_error {E σ : Type} (node : ASTControlTag)
    (c : RenderContext E σ) (w : Writer) (s s1 : σ) (log : List (Call E)) (err : Error)
    (hinner : c.InnerString s = (.error err, s1)) :
    ∃ render : RenderFunc E σ, captureTagParser node = .ok render ∧
      render c w ⟨s, log⟩ =
        (Outcome.ret (some err), w, ⟨s1, log ++ [Call.innerString]⟩) ∧
      (∀ name value, Call.set name value ∉ ([Call.innerString] : List (Call E))) ∧
      ∀ lookup : σ → String → Option Value,
        (∀ name, lookup s1 name = lookup s name) →
        ∀ name, lookup (render c w ⟨s, log⟩).2.2.ctx name = lookup s name := by
  have hrun := captureRender_error node.Parameters c w s s1 log err hinner
  refine ⟨captureRender node.Parameters, rfl, hrun, by simp, ?_⟩
  intro lookup hsame name
  rw [hrun]
  exact hsame name

/-- C11, on `capture greeting` whose inner rendering fails while `greeting` is bound
to `old`: the error is returned and `greeting` still reads `old`. -/
theorem captureTagParser_propagates_inner_error_witness :
    ∃ render : RenderFunc Example.Expr Example.State,
      captureTagParser Example.captureNode = .ok render ∧
      render Example.context ["before"] ⟨Example.failing, []⟩ =
        (Outcome.ret (some "inner render failed"), ["before"],
          ⟨Example.failing, [Call.innerString]⟩) ∧
      Example.lookup (render Example.context ["before"] ⟨Example.failing, []⟩).2.2.ctx
        "greeting" = some (.str "old") := by
  obtain ⟨r, h1, h2, -, h3⟩ :=
    captureTagParser_propagates_inner_error Example.captureNode Example.context
      ["before"] Example.failing Example.failing [] "inner render failed" rfl
  exact ⟨r, h1, h2, h3 Example.lookup (fun _ => rfl) "greeting"⟩

/-- C12: whether `InnerString` succeeds or fails, the capture render step leaves the
writer it is given as it was, and makes no `RenderBranch` call, the only call that is
handed the writer. -/
theorem captureTagParser_writes_nothing {E σ : Type} (node : ASTControlTag)
    (c : RenderContext E σ) (w : Writer) (st : Run E σ) :
    ∃ render : RenderFunc E σ, captureTagParser node = .ok render ∧
      (render c w st).2.1 = w ∧
      ∀ n, Call.renderBranch n ∈ (render c w st).2.2.calls →
        Call.renderBranch n ∈ st.calls := by
  refine ⟨captureRender node.Parameters, rfl, ?_⟩
  obtain ⟨s, log⟩ := st
  rcases hE : c.InnerString s with ⟨r, s1⟩
  cases r with
  | error err =>
    rw [captureRender_error node.Parameters c w s s1 log err hE]
    simp
  | ok str =>
    have hrun : captureRender node.Parameters c w ⟨s, log⟩ =
        (Outcome.ret none, w,
          ⟨c.Set node.Parameters (Value.str str) s1,
            log ++ [Call.innerString, Call.set node.Parameters (Value.str str)]⟩) := by
      simp [captureRender, callInnerString, callSet, hE]
    rw [hrun]
    simp

/-- C12, on `capture greeting` with inner text `hi` and with a failing inner
rendering: the writer still holds `before` only. -/
theorem captureTagParser_writes_nothing_witness :
    (∃ render : RenderFunc Example.Expr Example.State,
      captureTagParser Example.captureNode = .ok render ∧
      (render Example.context ["before"] ⟨Example.start, []⟩).2.1 = ["before"]) ∧
    (∃ render : RenderFunc Example.Expr Example.State,
      captureTagParser Example.captureNode = .ok render ∧
      (render Example.context ["before"] ⟨Example.failing, []⟩).2.1 = ["before"]) := by
  obtain ⟨r, h1, h2, -⟩ :=
    captureTagParser_writes_nothing Example.captureNode Example.context ["before"]
      ⟨Example.start, []⟩
  obtain ⟨r', h1', h2', -⟩ :=
    captureTagParser_writes_nothing Example.captureNode Example.context ["before"]
      ⟨Example.failing, []⟩
  exact ⟨⟨r, h1, h2⟩, ⟨r', h1', h2'⟩⟩

/-! ## Errors in the `case` render step -/

/-- C15: in a `case` render step, when evaluating the subject fails with `err`, the
step returns `err` after that one evaluation; and when the subject evaluates to `v`,
the candidates `0..k-1` evaluate to values that `Equal` does not relate to `v`, and
evaluating candidate `k` fails with `err`, the step returns `err` after evaluating the
subject and the candidates `0..k`, whatever the later branches are.  In both cases no
`RenderBranch` call is made and the writer is as it was. -/
theorem caseTagParser_propagates_errors {E σ : Type} (X : Expressions E)
    (Equal : Value → Value → Bool) (node : ASTControlTag) (expr : E)
    (cases : List (caseRec E)) (hc : caseTagCompile X node = .ok (expr, cases))
    (c : RenderContext E σ) (w : Writer) (s : σ) (log : List (Call E)) :
    ∃ render : RenderFunc E σ, caseTagParser X Equal node = .ok render ∧
      (∀ err s1, c.Evaluate expr s = (.error err, s1) →
        render c w ⟨s, log⟩ =
          (Outcome.ret (some err), w, ⟨s1, log ++ [Call.evaluate expr]⟩)) ∧
      (∀ (v : Value) (s0 s1 s2 : σ) (k : Nat) (hk : k < cases.length) (err : Error),
        c.Evaluate expr s = (.ok v, s0) →
        noneEqual Equal c v ((cases.take k).map caseRec.expr) s0 = some s1 →
        c.Evaluate cases[k].expr s1 = (.error err, s2) →
        render c w ⟨s, log⟩ =
          (Outcome.ret (some err), w,
            ⟨s2, log ++ [Call.evaluate expr] ++
              evaluations ((cases.take (k + 1)).map caseRec.expr)⟩)) ∧
      ∀ (es : List E) (n : ASTControlTag),
        Call.renderBranch n ∉ Call.evaluate expr :: evaluations es := by
  refine ⟨_, caseTagParser_of_compile X Equal node expr cases hc, ?_, ?_, ?_⟩
  · intro err s1 he
    exact caseRender_error Equal c expr cases w s s1 log err he
  · intro v s0 s1 s2 k hk err hsubj hmiss heval
    rw [caseRender_ok Equal c expr cases w s s0 log v hsubj]
    conv_lhs => rw [split_at cases k hk]
    rw [caseRenderLoop_skip Equal c v _ _ w s0 s1 _ hmiss,
      caseRenderLoop_error Equal c v _ _ w s1 s2 _ err heval,
      evaluations_take_succ caseRec.expr cases k hk]
    simp
  · intro es n
    simp [evaluations]

/-- C15, on `case x` with `x` unbound, and on `case 2 / when y / when 2` with `y`
unbound: the error is returned although the later `when 2` matches the subject. -/
theorem caseTagParser_propagates_errors_witness :
    (∃ render : RenderFunc Example.Expr Example.State,
      caseTagParser Example.exprs Example.equal Example.caseEmptyNode = .ok render ∧
      render Example.context ["before"] ⟨Example.start, []⟩ =
        (Outcome.ret (some "undefined variable x"), ["before"],
          ⟨{ Example.start with evals := 1 }, [Call.evaluate (.var "x")]⟩)) ∧
    (∃ render : RenderFunc Example.Expr Example.State,
      caseTagParser Example.exprs Example.equal Example.caseErrNode = .ok render ∧
      render Example.context ["before"] ⟨Example.start, []⟩ =
        (Outcome.ret (some "undefined variable y"), ["before"],
          ⟨{ Example.start with evals := 2 },
            [Call.evaluate (.const (.int 2)), Call.evaluate (.var "y")]⟩)) := by
  obtain ⟨r, h1, h2, -, -⟩ :=
    caseTagParser_propagates_errors Example.exprs Example.equal Example.caseEmptyNode
      (.var "x") [] rfl Example.context ["before"] Example.start []
  obtain ⟨r', h1', -, h3', -⟩ :=
    caseTagParser_propagates_errors Example.exprs Example.equal Example.caseErrNode
      (.const (.int 2)) Example.caseErrCases rfl Example.context ["before"]
      Example.start []
  exact ⟨⟨r, h1, h2 "undefined variable x" { Example.start with evals := 1 } rfl⟩,
    ⟨r', h1', h3' (.int 2) { Example.start with evals := 1 }
      { Example.start with evals := 1 } { Example.start with evals := 2 } 0
      (by decide) "undefined variable y" rfl rfl rfl⟩⟩

/-! ## Branches after an unconditional branch, and the body of `case` -/

/-- C16: in an `if` / `unless` chain with a branch `u` whose name is not `elsif`
(such as `else`) followed by further branches, the compiled entry of `u` has the test
`Constant(true)`; on every context on which evaluating `Constant(true)` yields the
boolean `true`, the render step behaves as the chain cut after `u`, so the tests and
bodies of the branches after `u` play no part.  Compilation succeeds whenever the
primary text and the texts of the `elsif` branches parse, wherever `u` stands, and it
fails when an `elsif` after `u` is malformed. -/
theorem branches_after_else_are_dead {E σ : Type} (X : Expressions E) (polarity : Bool)
    (node : ASTControlTag) (pre post : List ASTControlTag) (u : ASTControlTag)
    (hb : node.Branches = pre ++ u :: post) (hu : u.Name ≠ "elsif") :
    (∀ branches, ifTagCompile X polarity node = .ok branches →
      branches[pre.length + 1]? = some ⟨X.Constant (Value.bool true), u⟩ ∧
      ∀ c : RenderContext E σ,
        (∀ s, (c.Evaluate (X.Constant (Value.bool true)) s).1 = .ok (Value.bool true)) →
        ∃ render : RenderFunc E σ, ifTagParser X polarity node = .ok render ∧
          ∀ w st, render c w st = ifRender c (branches.take (pre.length + 2)) w st) ∧
    ((∃ e0, X.Parse node.Parameters = .ok e0) →
      (∀ b ∈ node.Branches, b.Name = "elsif" → ∃ t, X.Parse b.Parameters = .ok t) →
      ∃ render : RenderFunc E σ, ifTagParser X polarity node = .ok render) ∧
    (∀ b ∈ post, b.Name = "elsif" → (∃ err, X.Parse b.Parameters = .error err) →
      ∃ err, ifTagParser (σ := σ) X polarity node = .error err) := by
  refine ⟨?_, ?_, ?_⟩
  · intro branches hc
    have hentry : ∃ (h : pre.length + 1 < branches.length),
        branches[pre.length + 1] = ⟨X.Constant (Value.bool true), u⟩ := by
      cases hp : X.Parse node.Parameters with
      | error err => simp [ifTagCompile, hp] at hc
      | ok e0 =>
        rw [ifTagCompile_eq X polarity node e0 hp] at hc
        cases hl : ifCompileLoop X node.Branches [] with
        | error err => simp [hl, Except.map] at hc
        | ok tl =>
          simp only [hl, Except.map, Except.ok.injEq] at hc
          subst hc
          obtain ⟨tl', htl, hf⟩ := ifCompileLoop_ok X node.Branches [] tl hl
          simp only [List.nil_append] at htl
          subst htl
          obtain ⟨hlen, hget⟩ := List.forall₂_iff_get.1 hf
          have hj : pre.length < node.Branches.length := by simp [hb]
          have hj' : pre.length < tl.length := by omega
          have hent := hget pre.length hj hj'
          have hnode : node.Branches.get ⟨pre.length, hj⟩ = u := by
            simp only [List.get_eq_getElem, hb]
            exact getElem_append_cons_length pre post u (by simp)
          rw [hnode] at hent
          obtain ⟨h1, h2, -, h4⟩ := hent
          refine ⟨by simpa using hj', ?_⟩
          have htest : (tl.get ⟨pre.length, hj'⟩).test = X.Constant (Value.bool true) := by
            by_cases he : u.Name = "else"
            · exact h2 he
            · exact h4 he hu
          have hrec : tl.get ⟨pre.length, hj'⟩ = ⟨X.Constant (Value.bool true), u⟩ := by
            rw [← htest, ← h1]
          simpa using hrec
    obtain ⟨hlt, hrec⟩ := hentry
    refine ⟨by rw [List.getElem?_eq_getElem hlt, hrec], ?_⟩
    intro c ht
    refine ⟨_, ifTagParser_of_compile X polarity node branches hc, ?_⟩
    intro w st
    exact ifRender_take_of_true c _ ht branches (pre.length + 1) hlt (by rw [hrec]) w st
  · intro hp hall
    cases hc : ifTagCompile X polarity node with
    | ok branches => exact ⟨_, ifTagParser_of_compile X polarity node branches hc⟩
    | error err =>
      exfalso
      rcases (ifTagCompile_error_iff X polarity node).1 ⟨err, hc⟩ with h | h
      · obtain ⟨e0, he0⟩ := hp
        obtain ⟨err', herr'⟩ := h
        rw [he0] at herr'
        cases herr'
      · obtain ⟨b, hbm, hbn, err', herr'⟩ := h
        obtain ⟨t, ht⟩ := hall b hbm hbn
        rw [ht] at herr'
        cases herr'
  · intro b hbm hbn hbad
    have hmem : b ∈ node.Branches := by simp [hb, hbm]
    obtain ⟨err, herr⟩ :=
      (ifTagCompile_error_iff X polarity node).2 (Or.inr ⟨b, hmem, hbn, hbad⟩)
    exact ⟨err, by simp [ifTagParser, herr]⟩

/-- C16, on `if false / else / elsif x` with `x` unbound: compilation succeeds, the
`else` body `B` is rendered and `x` is never evaluated; and `if false / else /
elsif ??` does not compile. -/
theorem branches_after_else_are_dead_witness :
    (∃ render : RenderFunc Example.Expr Example.State,
      ifTagParser Example.exprs true Example.deadNode = .ok render ∧
      render Example.context [] ⟨Example.start, []⟩ =
        (Outcome.ret none, ["B"],
          ⟨{ Example.start with evals := 2 },
            [Call.evaluate (.const (.bool false)), Call.evaluate (.const (.bool true)),
              Call.renderBranch (.mk "else" "" [⟨"B"⟩] [])]⟩)) ∧
    ∃ err, ifTagParser (σ := Example.State) Example.exprs true Example.deadBadNode =
      .error err := by
  have h := branches_after_else_are_dead (σ := Example.State) Example.exprs true
    Example.deadNode [] [.mk "elsif" "x" [⟨"C"⟩] []] (.mk "else" "" [⟨"B"⟩] []) rfl
    (by decide)
  have h' := branches_after_else_are_dead (σ := Example.State) Example.exprs true
    Example.deadBadNode [] [.mk "elsif" "??" [⟨"C"⟩] []] (.mk "else" "" [⟨"B"⟩] []) rfl
    (by decide)
  obtain ⟨r, h1, h2⟩ := (h.1 Example.deadBranches rfl).2 Example.context (fun _ => rfl)
  refine ⟨⟨r, h1, ?_⟩, h'.2.2 (.mk "elsif" "??" [⟨"C"⟩] []) (by simp) rfl
    ⟨"syntax error in ??", rfl⟩⟩
  rw [h2]
  rfl

/-- C17: the `case` tag ignores its own body: two nodes that differ only in `Body`
have the same compilation result (success or error, subject and `when` list) and the
same render step, and every `RenderBranch` call that the render step makes is on one
of the branch nodes, never on the `case` node itself. -/
theorem caseTagParser_ignores_body {E σ : Type} (X : Expressions E)
    (Equal : Value → Value → Bool) (name params : String) (body body' : List ASTNode)
    (branches : List ASTControlTag) :
    caseTagCompile X (ASTControlTag.mk name params body branches) =
      caseTagCompile X (ASTControlTag.mk name params body' branches) ∧
    caseTagParser (σ := σ) X Equal (ASTControlTag.mk name params body branches) =
      caseTagParser X Equal (ASTControlTag.mk name params body' branches) ∧
    ∀ render : RenderFunc E σ,
      caseTagParser X Equal (ASTControlTag.mk name params body branches) = .ok render →
      ∀ (c : RenderContext E σ) (w : Writer) (st : Run E σ),
        ∃ added, (render c w st).2.2.calls = st.calls ++ added ∧
          ∀ n, Call.renderBranch n ∈ added →
            n ∈ branches ∧ n ≠ ASTControlTag.mk name params body branches := by
  refine ⟨rfl, rfl, ?_⟩
  intro render hr c w st
  cases hc : caseTagCompile X (ASTControlTag.mk name params body branches) with
  | error err => simp [caseTagParser, hc] at hr
  | ok r =>
    obtain ⟨expr, cases⟩ := r
    rw [caseTagParser_of_compile X Equal _ expr cases hc] at hr
    simp only [Except.ok.injEq] at hr
    subst hr
    obtain ⟨-, hf⟩ := caseTagCompile_ok X _ expr cases hc
    obtain ⟨hlen, hget⟩ := List.forall₂_iff_get.1 hf
    obtain ⟨added, h1, h2⟩ := caseRender_calls Equal c expr cases w st
    refine ⟨added, h1, ?_⟩
    intro n hn
    obtain ⟨rec, hrec, hrn⟩ := h2 n hn
    obtain ⟨i, hi, hget'⟩ := List.getElem_of_mem hrec
    have hi' : i < branches.length := by
      have : (ASTControlTag.mk name params body branches).Branches = branches := rfl
      rw [this] at hlen
      omega
    have hent := (hget i hi' hi).1
    have hmem : n ∈ branches := by
      rw [← hrn, ← hget']
      have hb : (ASTControlTag.mk name params body branches).Branches = branches := rfl
      simp only [List.get_eq_getElem] at hent
      rw [hent]
      simp only [hb]
      exact List.getElem_mem hi'
    exact ⟨hmem, branch_ne_node name params body branches n hmem⟩

/-- C17, on `case 2 / when 1 / when 2 / when 3` with and without text before the
first `when`: the same compilation result and render step. -/
theorem caseTagParser_ignores_body_witness :
    caseTagParser (σ := Example.State) Example.exprs Example.equal
        (.mk "case" "2" [⟨"stray text"⟩] Example.caseNode.Branches) =
      caseTagParser Example.exprs Example.equal Example.caseNode :=
  (caseTagParser_ignores_body Example.exprs Example.equal "case" "2" [⟨"stray text"⟩] []
    Example.caseNode.Branches).2.1

/-! ## The registrations of `DefineStandardTags` -/

/-- C13: the registrations of `DefineStandardTags` succeed; `break` and `continue` are
simple tags; `for` and `tablerow` are block tags that govern exactly `break`,
`continue` and `cycle`, and no other registered tag governs anything.  The name
`cycle` itself is registered by no statement: it has no definition in the registry. -/
theorem DefineStandardTags_loop_signals {E σ R : Type} (X : Expressions E)
    (Equal : Value → Value → Bool) (breakTag continueTag : R)
    (loopTagParser : TagParser E σ) :
    ∃ reg, install (DefineStandardTags X Equal breakTag continueTag loopTagParser) [] =
        .ok reg ∧
      (∃ d, reg.lookup "break" = some d ∧ d.isBlock = false ∧
        d.renderFn = some breakTag) ∧
      (∃ d, reg.lookup "continue" = some d ∧ d.isBlock = false ∧
        d.renderFn = some continueTag) ∧
      (∃ d, reg.lookup "for" = some d ∧ d.isBlock = true ∧
        d.governedTags = ["break", "continue", "cycle"]) ∧
      (∃ d, reg.lookup "tablerow" = some d ∧ d.isBlock = true ∧
        d.governedTags = ["break", "continue", "cycle"]) ∧
      (∀ d ∈ reg, d.name ≠ "for" → d.name ≠ "tablerow" → d.governedTags = []) ∧
      reg.lookup "cycle" = none ∧
      ∀ r ∈ DefineStandardTags X Equal breakTag continueTag loopTagParser,
        r.name ≠ "cycle" := by
  refine ⟨_, rfl, ⟨_, rfl, rfl, rfl⟩, ⟨_, rfl, rfl, rfl⟩, ⟨_, rfl, rfl, rfl⟩,
    ⟨_, rfl, rfl, rfl⟩, ?_, rfl, ?_⟩
  · intro d hd
    simp only [List.nil_append, List.cons_append, List.mem_cons, List.not_mem_nil,
      or_false] at hd
    rcases hd with h | h | h | h | h | h | h | h | h | h <;> subst h <;> intro h1 h2 <;>
      first
        | rfl
        | exact absurd rfl h1
        | exact absurd rfl h2
  · intro r hr
    simp only [DefineStandardTags, List.mem_cons, List.not_mem_nil, or_false] at hr
    rcases hr with h | h | h | h | h | h | h | h | h | h <;> subst h <;>
      simp [Registration.name]

/-- C14: in the registrations of `DefineStandardTags`, `if` is a block tag declaring
exactly the branch names `else` and `elsif`, compiled by `ifTagParser(true)`;
`unless` is declared with the syntax of `if`, so it has the same branch names, and is
compiled by `ifTagParser(false)`; `case` declares the one branch name `when`, so
`else` is not one of its branches; and no tag name is registered twice. -/
theorem DefineStandardTags_conditional_syntax {E σ R : Type} (X : Expressions E)
    (Equal : Value → Value → Bool) (breakTag continueTag : R)
    (loopTagParser : TagParser E σ) :
    Registration.DefineStartTag "if"
        [.Branch "else", .Branch "elsif", .Parser (ifTagParser X true)] ∈
      DefineStandardTags X Equal breakTag continueTag loopTagParser ∧
    Registration.DefineStartTag "unless"
        [.SameSyntaxAs "if", .Parser (ifTagParser X false)] ∈
      DefineStandardTags X Equal breakTag continueTag loopTagParser ∧
    Registration.DefineStartTag "case"
        [.Branch "when", .Parser (caseTagParser X Equal)] ∈
      DefineStandardTags X Equal breakTag continueTag loopTagParser ∧
    ((DefineStandardTags X Equal breakTag continueTag loopTagParser).map
      Registration.name).Nodup ∧
    ∃ reg, install (DefineStandardTags X Equal breakTag continueTag loopTagParser) [] =
        .ok reg ∧
      (∃ d, reg.lookup "if" = some d ∧ d.isBlock = true ∧
        d.declaredBranches = ["else", "elsif"] ∧
        d.compileFn = some (ifTagParser X true)) ∧
      (∃ d, reg.lookup "unless" = some d ∧ d.isBlock = true ∧
        d.syntaxAlias = some "if" ∧ d.declaredBranches = ["else", "elsif"] ∧
        d.compileFn = some (ifTagParser X false)) ∧
      (∃ d, reg.lookup "case" = some d ∧ d.isBlock = true ∧
        d.declaredBranches = ["when"] ∧ "else" ∉ d.declaredBranches ∧
        d.compileFn = some (caseTagParser X Equal)) := by
  have hnames : (DefineStandardTags X Equal breakTag continueTag loopTagParser).map
      Registration.name =
      ["break", "continue", "capture", "case", "comment", "for", "if", "raw",
        "tablerow", "unless"] := rfl
  refine ⟨by simp [DefineStandardTags], by simp [DefineStandardTags],
    by simp [DefineStandardTags], by rw [hnames]; decide, _, rfl,
    ⟨_, rfl, rfl, rfl, rfl⟩, ⟨_, rfl, rfl, rfl, rfl, rfl⟩,
    ⟨_, rfl, rfl, rfl, (show "else" ∉ ["when"] by decide), rfl⟩⟩

end Liquid
